import Mathlib

set_option maxRecDepth 8000

namespace Swyft

/-! # Shallow embedding of the swyft adaptive-sampling core

Real-valued quantities of the Python source are modelled as rationals, so
that every definition is executable and decidable on concrete inputs. -/

/-- Sign mask of a value list: `np.where(y > 0., 1., 0.)` in
`construct_intervals` (`src/swyft/interface.py`).  The float values `1.0` and
`0.0` are exact integers, so the mask is modelled over `ℤ`. -/
def mask (y : List ℚ) : List ℤ := y.map fun v => if 0 < v then 1 else 0

/-- Forward difference `m[1:] - m[:-1]` of a list. -/
def npdiff (l : List ℤ) : List ℤ := List.zipWith (fun a b => a - b) l.tail l

/-- `np.argwhere(m == c)[:,0]`: the ascending list of indices whose entry
equals `c`. -/
def argwhereEq (l : List ℤ) (c : ℤ) : List ℕ :=
  (List.range l.length).filter fun i => decide (l.getD i 0 = c)

/-- Upcrossing indices `i0` of `construct_intervals`. -/
def upIdx (y : List ℚ) : List ℕ := argwhereEq (npdiff (mask y)) 1

/-- Downcrossing indices `i1` of `construct_intervals`. -/
def downIdx (y : List ℚ) : List ℕ := argwhereEq (npdiff (mask y)) (-1)

/-- Shallow embedding of `construct_intervals` from `src/swyft/interface.py`.
`np.append(i1, -1)` appends the sentinel `-1`, which indexes `x` as its last
element; it is modelled by appending the index `x.length - 1`. The second
boundary fix `np.append(0, i0)` prepends index `0`. -/
def construct_intervals (x y : List ℚ) : List (ℚ × ℚ) :=
  let i0 := upIdx y
  let i1 := downIdx y
  if i0.length = 0 ∧ i1.length = 0 then
    [(x.headD 0, x.getLastD 0)]
  else
    let i1' := if (i0.length : ℤ) - (i1.length : ℤ) = 1 then i1 ++ [x.length - 1] else i1
    let i0' := if (i0.length : ℤ) - (i1'.length : ℤ) = -1 then 0 :: i0 else i0
    (List.range i0'.length).map fun i => (x.getD (i0'.getD i 0) 0, x.getD (i1'.getD i 0) 0)

/-- The IntervalSet well-formedness predicate from the spec: every pair is
ordered, and the pairs are pairwise disjoint (strictly separated) and sorted
ascending. -/
def validIntervalSet (l : List (ℚ × ℚ)) : Prop :=
  (∀ p ∈ l, p.1 ≤ p.2) ∧ List.Pairwise (fun p q : ℚ × ℚ => p.2 < q.1) l

/-! ## Basic access lemmas -/

theorem getD_range_map {α : Type} (f : ℕ → α) (d : α) (n i : ℕ) (h : i < n) :
    (((List.range n).map f).getD i d) = f i := by
  rw [List.getD_eq_getElem _ _ (by simpa using h), List.getElem_map, List.getElem_range]

theorem length_npdiff (l : List ℤ) : (npdiff l).length = l.length - 1 := by
  simp [npdiff]

theorem length_mask (y : List ℚ) : (mask y).length = y.length := by
  simp [mask]

theorem npdiff_getD (l : List ℤ) (i : ℕ) (h : i + 1 < l.length) :
    (npdiff l).getD i 0 = l.getD (i + 1) 0 - l.getD i 0 := by
  have hlen : i < (npdiff l).length := by rw [length_npdiff]; omega
  have hl : i < l.length := by omega
  rw [List.getD_eq_getElem _ _ hlen, List.getD_eq_getElem _ _ h, List.getD_eq_getElem _ _ hl]
  simp [npdiff, List.getElem_zipWith, List.getElem_tail]

theorem mask_getD (y : List ℚ) (i : ℕ) (h : i < y.length) :
    (mask y).getD i 0 = if 0 < y.getD i 0 then 1 else 0 := by
  rw [List.getD_eq_getElem _ _ (by simpa [mask] using h), List.getD_eq_getElem _ _ h]
  simp [mask]

/-- Bridge: the diff entry at `i` equals `1` iff the curve crosses from
non-positive to positive between grid points `i` and `i+1`. -/
theorem diff_eq_one_iff (y : List ℚ) (i : ℕ) (h : i + 1 < y.length) :
    (npdiff (mask y)).getD i 0 = 1 ↔ (¬ 0 < y.getD i 0) ∧ 0 < y.getD (i + 1) 0 := by
  rw [npdiff_getD _ _ (by rw [length_mask]; omega), mask_getD _ _ (by omega),
    mask_getD _ _ (by omega)]
  by_cases h0 : 0 < y.getD i 0 <;> by_cases h1 : 0 < y.getD (i + 1) 0
  · rw [if_pos h0, if_pos h1]; constructor
    · intro hc; norm_num at hc
    · rintro ⟨ha, _⟩; exact absurd h0 ha
  · rw [if_pos h0, if_neg h1]; constructor
    · intro hc; norm_num at hc
    · rintro ⟨ha, _⟩; exact absurd h0 ha
  · rw [if_neg h0, if_pos h1]
    constructor
    · intro _; exact ⟨h0, h1⟩
    · intro _; norm_num
  · rw [if_neg h0, if_neg h1]; constructor
    · intro hc; norm_num at hc
    · rintro ⟨_, hb⟩; exact absurd hb h1

/-- Bridge: the diff entry at `i` equals `-1` iff the curve crosses from
positive to non-positive between grid points `i` and `i+1`. -/
theorem diff_eq_negone_iff (y : List ℚ) (i : ℕ) (h : i + 1 < y.length) :
    (npdiff (mask y)).getD i 0 = -1 ↔ 0 < y.getD i 0 ∧ ¬ 0 < y.getD (i + 1) 0 := by
  rw [npdiff_getD _ _ (by rw [length_mask]; omega), mask_getD _ _ (by omega),
    mask_getD _ _ (by omega)]
  by_cases h0 : 0 < y.getD i 0 <;> by_cases h1 : 0 < y.getD (i + 1) 0
  · rw [if_pos h0, if_pos h1]; constructor
    · intro hc; norm_num at hc
    · rintro ⟨_, hb⟩; exact absurd h1 hb
  · rw [if_pos h0, if_neg h1]
    constructor
    · intro _; exact ⟨h0, h1⟩
    · intro _; norm_num
  · rw [if_neg h0, if_pos h1]; constructor
    · intro hc; norm_num at hc
    · rintro ⟨ha, _⟩; exact absurd ha h0
  · rw [if_neg h0, if_neg h1]; constructor
    · intro hc; norm_num at hc
    · rintro ⟨ha, _⟩; exact absurd ha h0

theorem getD_mem (l : List ℚ) (i : ℕ) (h : i < l.length) : l.getD i 0 ∈ l := by
  rw [List.getD_eq_getElem _ _ h]; exact List.getElem_mem h

theorem headD_eq_getD {α : Type} (l : List α) (d : α) : l.headD d = l.getD 0 d := by
  cases l <;> simp

theorem getLastD_eq_getD {α : Type} (l : List α) (d : α) :
    l.getLastD d = l.getD (l.length - 1) d := by
  rw [List.getLastD_eq_getLast?, List.getLast?_eq_getElem?, List.getD_eq_getElem?_getD]

theorem getD_append_left {α : Type} (l l' : List α) (i : ℕ) (d : α) (h : i < l.length) :
    (l ++ l').getD i d = l.getD i d := by
  rw [List.getD_eq_getElem _ _ (by simp; omega), List.getD_eq_getElem _ _ h,
    List.getElem_append_left]

theorem getD_append_length {α : Type} (l : List α) (a d : α) :
    (l ++ [a]).getD l.length d = a := by
  rw [List.getD_eq_getElem _ _ (by simp)]
  simp

/-! ## No-crossing case (claim C2) -/

theorem uniform_sign_no_crossing (y : List ℚ)
    (h : (∀ v ∈ y, 0 < v) ∨ (∀ v ∈ y, v ≤ 0)) :
    upIdx y = [] ∧ downIdx y = [] := by
  have hlen : (npdiff (mask y)).length = y.length - 1 := by
    rw [length_npdiff, length_mask]
  constructor
  · unfold upIdx argwhereEq
    rw [List.filter_eq_nil_iff]
    intro i hi
    rw [List.mem_range, hlen] at hi
    have h2 : i + 1 < y.length := by omega
    simp only [decide_eq_true_eq]
    rw [diff_eq_one_iff y i h2]
    rcases h with hpos | hneg
    · exact fun hc => hc.1 (hpos _ (getD_mem y i (by omega)))
    · exact fun hc => absurd hc.2 (not_lt.mpr (hneg _ (getD_mem y (i + 1) h2)))
  · unfold downIdx argwhereEq
    rw [List.filter_eq_nil_iff]
    intro i hi
    rw [List.mem_range, hlen] at hi
    have h2 : i + 1 < y.length := by omega
    simp only [decide_eq_true_eq]
    rw [diff_eq_negone_iff y i h2]
    rcases h with hpos | hneg
    · exact fun hc => hc.2 (hpos _ (getD_mem y (i + 1) h2))
    · exact fun hc => absurd hc.1 (not_lt.mpr (hneg _ (getD_mem y i (by omega))))

/-- Claim C2: a curve with no sign crossings (uniformly positive, or uniformly
at/below zero, at every grid point) yields the full grid span as a single
interval. -/
theorem construct_intervals_full_span (x y : List ℚ)
    (h : (∀ v ∈ y, 0 < v) ∨ (∀ v ∈ y, v ≤ 0)) :
    upIdx y = [] ∧ downIdx y = [] ∧
      construct_intervals x y = [(x.headD 0, x.getLastD 0)] := by
  obtain ⟨h0, h1⟩ := uniform_sign_no_crossing y h
  refine ⟨h0, h1, ?_⟩
  simp [construct_intervals, h0, h1]

/-- Witness for C2 on a concrete flat positive curve. -/
theorem construct_intervals_full_span_witness :
    upIdx [(1 : ℚ), 1] = [] ∧ downIdx [(1 : ℚ), 1] = [] ∧
      construct_intervals [0, 1] [1, 1] = [(0, 1)] :=
  construct_intervals_full_span [0, 1] [1, 1] (Or.inl (by norm_num))

/-! ## Boundary fixes (claim C3) -/

/-- Claim C3: when upcrossings outnumber downcrossings by exactly one, the
last returned interval ends at the last grid point (synthetic downcrossing at
the last index); when downcrossings outnumber upcrossings by exactly one, the
first returned interval starts at the first grid point (synthetic upcrossing
at index 0). -/
theorem construct_intervals_boundary_fix (x y : List ℚ) :
    ((upIdx y).length = (downIdx y).length + 1 →
      ((construct_intervals x y).getLastD (0, 0)).2 = x.getLastD 0) ∧
    ((downIdx y).length = (upIdx y).length + 1 →
      ((construct_intervals x y).headD (0, 0)).1 = x.headD 0) := by
  constructor
  · intro hU
    have hc1 : ¬ ((upIdx y).length = 0 ∧ (downIdx y).length = 0) := by omega
    have hc2 : ((upIdx y).length : ℤ) - ((downIdx y).length : ℤ) = 1 := by
      rw [hU]; push_cast; ring
    have hc3 : ¬ (((upIdx y).length : ℤ) -
        ((downIdx y ++ [x.length - 1]).length : ℤ) = -1) := by
      simp only [List.length_append, List.length_singleton, hU]; push_cast; omega
    simp only [construct_intervals]
    rw [if_neg hc1, if_pos hc2, if_neg hc3]
    rw [getLastD_eq_getD, List.length_map, List.length_range,
      getD_range_map _ _ _ _ (by omega)]
    simp only
    rw [show (upIdx y).length - 1 = (downIdx y).length from by omega,
      getD_append_length, getLastD_eq_getD]
  · intro hD
    have hc1 : ¬ ((upIdx y).length = 0 ∧ (downIdx y).length = 0) := by omega
    have hc2 : ¬ (((upIdx y).length : ℤ) - ((downIdx y).length : ℤ) = 1) := by
      rw [hD]; push_cast; omega
    have hc3 : ((upIdx y).length : ℤ) - ((downIdx y).length : ℤ) = -1 := by
      rw [hD]; push_cast; ring
    simp only [construct_intervals]
    rw [if_neg hc1, if_neg hc2, if_pos hc3]
    rw [headD_eq_getD, getD_range_map _ _ _ _ (by simp)]
    simp only [List.getD_cons_zero]
    rw [headD_eq_getD]

/-- Witness for C3: `y = [-1, 1]` has one unmatched upcrossing and the
interval closes at the right grid boundary; `y = [1, -1]` has one unmatched
downcrossing and the interval opens at the left grid boundary. -/
theorem construct_intervals_boundary_fix_witness :
    ((construct_intervals [5, 7] [-1, 1]).getLastD (0, 0)).2 = (7 : ℚ) ∧
    ((construct_intervals [5, 7] [1, -1]).headD (0, 0)).1 = (5 : ℚ) := by
  constructor
  · have := (construct_intervals_boundary_fix [5, 7] [-1, 1]).1 (by decide)
    exact this.trans (by decide)
  · have := (construct_intervals_boundary_fix [5, 7] [1, -1]).2 (by decide)
    exact this.trans (by decide)

/-! ## Claim C1 counterexample: a curve positive at both boundaries with an
interior dip yields a reversed interval. -/

/-- The claim of C1 fails as stated: for the strictly ascending grid
`[0, 1, 2]` and matching values `[1, -1, 1]` (length 3 ≥ 2), the single
returned pair is `(1, 0)`, which violates `lo ≤ hi`. -/
theorem construct_intervals_not_valid_cex :
    List.Pairwise (fun a b : ℚ => a < b) [0, 1, 2] ∧
      ([0, 1, 2] : List ℚ).length = ([1, -1, 1] : List ℚ).length ∧
      2 ≤ ([1, -1, 1] : List ℚ).length ∧
      construct_intervals [0, 1, 2] [1, -1, 1] = [(1, 0)] ∧
      ¬ validIntervalSet (construct_intervals [0, 1, 2] [1, -1, 1]) := by
  refine ⟨by norm_num, by rfl, by norm_num, by decide, ?_⟩
  intro hv
  have := hv.1 (1, 0) (by decide)
  norm_num at this

/-! ## Crossing-count machinery

`argwhereEq` is a filter over `List.range`; the lemmas below characterize the
`j`-th retained index through the count of earlier matches. -/

/-- Ascending list of indices `< k` satisfying `p`. -/
def filterRange (p : ℕ → Bool) (k : ℕ) : List ℕ := (List.range k).filter p

/-- Number of indices `< k` satisfying `p`. -/
def cnt (p : ℕ → Bool) (k : ℕ) : ℕ := (filterRange p k).length

theorem filterRange_succ (p : ℕ → Bool) (k : ℕ) :
    filterRange p (k + 1) = filterRange p k ++ if p k then [k] else [] := by
  unfold filterRange
  rw [List.range_succ, List.filter_append]
  by_cases h : p k <;> simp [h]

theorem cnt_succ (p : ℕ → Bool) (k : ℕ) :
    cnt p (k + 1) = cnt p k + if p k then 1 else 0 := by
  unfold cnt
  rw [filterRange_succ, List.length_append]
  by_cases h : p k <;> simp [h]

theorem cnt_mono (p : ℕ → Bool) (k k' : ℕ) (h : k ≤ k') : cnt p k ≤ cnt p k' := by
  induction k' with
  | zero =>
    have : k = 0 := by omega
    subst this; exact le_rfl
  | succ m ih =>
    rcases Nat.eq_or_lt_of_le h with he | hlt
    · subst he; exact le_rfl
    · have hle := ih (by omega)
      rw [cnt_succ]
      by_cases hp : p m = true <;> simp [hp] <;> omega

/-- The `j`-th retained index satisfies `p`, has exactly `j` earlier matches,
and is below the scan bound. -/
theorem filterRange_getD_char (p : ℕ → Bool) :
    ∀ k j, j < cnt p k →
      p ((filterRange p k).getD j 0) = true ∧
      cnt p ((filterRange p k).getD j 0) = j ∧
      (filterRange p k).getD j 0 < k := by
  intro k
  induction k with
  | zero => intro j hj; simp [cnt, filterRange] at hj
  | succ m ih =>
    intro j hj
    by_cases hp : p m = true
    · rw [cnt_succ, if_pos hp] at hj
      rcases Nat.lt_or_ge j (cnt p m) with hlt | hge
      · rw [filterRange_succ, if_pos hp, getD_append_left _ _ _ _ hlt]
        have hch := ih j hlt
        exact ⟨hch.1, hch.2.1, by omega⟩
      · have hj' : j = cnt p m := by omega
        subst hj'
        rw [filterRange_succ, if_pos hp,
          show cnt p m = (filterRange p m).length from rfl, getD_append_length]
        exact ⟨hp, rfl, by omega⟩
    · rw [cnt_succ, if_neg hp] at hj
      rw [filterRange_succ, if_neg hp, List.append_nil]
      have hch := ih j (by omega)
      exact ⟨hch.1, hch.2.1, by omega⟩

/-- If at least `j + 1` matches lie below `k`, the `j`-th retained index is
below `k`. -/
theorem filterRange_getD_lt (p : ℕ → Bool) (K j k : ℕ) (hj : j < cnt p K)
    (h : j < cnt p k) : (filterRange p K).getD j 0 < k := by
  by_contra hle
  push_neg at hle
  have hchar := filterRange_getD_char p K j hj
  have hmono := cnt_mono p k _ hle
  omega

/-- Conversely, if the `j`-th retained index is below `k` then at least
`j + 1` matches lie below `k`. -/
theorem cnt_lt_of_getD_lt (p : ℕ → Bool) (K j k : ℕ) (hj : j < cnt p K)
    (h : (filterRange p K).getD j 0 < k) : j < cnt p k := by
  have hchar := filterRange_getD_char p K j hj
  have h1 : cnt p ((filterRange p K).getD j 0 + 1) = j + 1 := by
    rw [cnt_succ, hchar.2.1, if_pos hchar.1]
  have hmono := cnt_mono p ((filterRange p K).getD j 0 + 1) k (by omega)
  omega

/-! ## Crossing predicates and the sign-count invariant -/

/-- Upcrossing predicate: the diff entry at `i` equals `1`. -/
def upP (y : List ℚ) (i : ℕ) : Bool := decide ((npdiff (mask y)).getD i 0 = 1)

/-- Downcrossing predicate: the diff entry at `i` equals `-1`. -/
def downP (y : List ℚ) (i : ℕ) : Bool := decide ((npdiff (mask y)).getD i 0 = -1)

/-- Strict-positivity sign of the curve at grid point `i`. -/
def signB (y : List ℚ) (i : ℕ) : Bool := decide (0 < y.getD i 0)

theorem upIdx_eq_filterRange (y : List ℚ) :
    upIdx y = filterRange (upP y) (y.length - 1) := by
  unfold upIdx argwhereEq filterRange upP
  rw [length_npdiff, length_mask]

theorem downIdx_eq_filterRange (y : List ℚ) :
    downIdx y = filterRange (downP y) (y.length - 1) := by
  unfold downIdx argwhereEq filterRange downP
  rw [length_npdiff, length_mask]

theorem upP_true_iff (y : List ℚ) (i : ℕ) (h : i + 1 < y.length) :
    upP y i = true ↔ (signB y i = false ∧ signB y (i + 1) = true) := by
  unfold upP signB
  simp only [decide_eq_true_eq, decide_eq_false_iff_not]
  exact diff_eq_one_iff y i h

theorem downP_true_iff (y : List ℚ) (i : ℕ) (h : i + 1 < y.length) :
    downP y i = true ↔ (signB y i = true ∧ signB y (i + 1) = false) := by
  unfold downP signB
  simp only [decide_eq_true_eq, decide_eq_false_iff_not]
  exact diff_eq_negone_iff y i h

theorem crossing_step (y : List ℚ) (k : ℕ) (h : k + 1 < y.length) :
    ((if upP y k = true then (1 : ℤ) else 0) - (if downP y k = true then 1 else 0))
      = (if signB y (k + 1) = true then (1 : ℤ) else 0)
        - (if signB y k = true then 1 else 0) := by
  have hu := upP_true_iff y k h
  have hd := downP_true_iff y k h
  cases hsk : signB y k <;> cases hsk1 : signB y (k + 1) <;>
    simp [hsk, hsk1] at hu hd <;> simp [hu, hd]

/-- Sign-count invariant: the sign of the curve at `k` is pinned by the
difference of the up- and down-crossing counts below `k`. -/
theorem cnt_invariant (y : List ℚ) (k : ℕ) (hk : k ≤ y.length - 1) :
    (cnt (upP y) k : ℤ) - (cnt (downP y) k : ℤ)
      = (if signB y k = true then (1 : ℤ) else 0)
        - (if signB y 0 = true then 1 else 0) := by
  induction k with
  | zero => simp [cnt, filterRange]
  | succ m ih =>
    have hm : m ≤ y.length - 1 := by omega
    have hstep := crossing_step y m (by omega)
    have ihm := ih hm
    rw [cnt_succ, cnt_succ]
    by_cases hup : upP y m = true <;> by_cases hdn : downP y m = true <;>
      simp only [hup, hdn, if_true, if_false, Bool.false_eq_true] at hstep ⊢ <;>
      push_cast <;> linarith

theorem cnt_total (y : List ℚ) :
    ((upIdx y).length : ℤ) - ((downIdx y).length : ℤ)
      = (if signB y (y.length - 1) = true then (1 : ℤ) else 0)
        - (if signB y 0 = true then 1 else 0) := by
  rw [upIdx_eq_filterRange, downIdx_eq_filterRange]
  exact cnt_invariant y (y.length - 1) le_rfl

theorem upIdx_getD_lt (y : List ℚ) (j : ℕ) (hj : j < (upIdx y).length) :
    (upIdx y).getD j 0 < y.length - 1 := by
  rw [upIdx_eq_filterRange] at hj ⊢
  exact (filterRange_getD_char (upP y) _ j hj).2.2

theorem downIdx_getD_lt (y : List ℚ) (j : ℕ) (hj : j < (downIdx y).length) :
    (downIdx y).getD j 0 < y.length - 1 := by
  rw [downIdx_eq_filterRange] at hj ⊢
  exact (filterRange_getD_char (downP y) _ j hj).2.2

/-! ## Interleaving of up- and downcrossings -/

/-- When the curve starts non-positive, the `j`-th upcrossing precedes the
`j`-th downcrossing. -/
theorem up_lt_down (y : List ℚ) (hs0 : signB y 0 = false) (j : ℕ)
    (hjD : j < (downIdx y).length) (hjU : j < (upIdx y).length) :
    (upIdx y).getD j 0 < (downIdx y).getD j 0 := by
  rw [upIdx_eq_filterRange] at hjU ⊢
  rw [downIdx_eq_filterRange] at hjD ⊢
  obtain ⟨hdP, hdcnt, hdlt⟩ := filterRange_getD_char (downP y) (y.length - 1) j hjD
  have hsd : signB y ((filterRange (downP y) (y.length - 1)).getD j 0) = true :=
    ((downP_true_iff y _ (by omega)).mp hdP).1
  have hinv := cnt_invariant y ((filterRange (downP y) (y.length - 1)).getD j 0) (by omega)
  rw [hsd, hs0, if_pos rfl, if_neg Bool.false_ne_true] at hinv
  exact filterRange_getD_lt (upP y) _ j _ hjU (by omega)

/-- When the curve starts non-positive, the `j`-th downcrossing exists and
precedes the `(j+1)`-th upcrossing. -/
theorem down_lt_up_succ (y : List ℚ) (hs0 : signB y 0 = false) (j : ℕ)
    (hj1U : j + 1 < (upIdx y).length) :
    j < (downIdx y).length ∧ (downIdx y).getD j 0 < (upIdx y).getD (j + 1) 0 := by
  rw [upIdx_eq_filterRange] at hj1U ⊢
  rw [downIdx_eq_filterRange]
  obtain ⟨huP, hucnt, hult⟩ := filterRange_getD_char (upP y) (y.length - 1) (j + 1) hj1U
  have hsu : signB y ((filterRange (upP y) (y.length - 1)).getD (j + 1) 0) = false :=
    ((upP_true_iff y _ (by omega)).mp huP).1
  have hinv := cnt_invariant y ((filterRange (upP y) (y.length - 1)).getD (j + 1) 0) (by omega)
  rw [hsu, hs0, if_neg Bool.false_ne_true] at hinv
  have hmono := cnt_mono (downP y)
    ((filterRange (upP y) (y.length - 1)).getD (j + 1) 0) (y.length - 1) (by omega)
  have hcde : cnt (downP y) (y.length - 1)
      = (filterRange (downP y) (y.length - 1)).length := rfl
  refine ⟨by omega, ?_⟩
  exact filterRange_getD_lt (downP y) _ j _ (by omega) (by omega)

/-- When the curve starts positive, the `j`-th upcrossing exists and precedes
the `(j+1)`-th downcrossing. -/
theorem up_lt_down_succ_s1 (y : List ℚ) (hs0 : signB y 0 = true) (j : ℕ)
    (hj1D : j + 1 < (downIdx y).length) :
    j < (upIdx y).length ∧ (upIdx y).getD j 0 < (downIdx y).getD (j + 1) 0 := by
  rw [downIdx_eq_filterRange] at hj1D ⊢
  rw [upIdx_eq_filterRange]
  obtain ⟨hdP, hdcnt, hdlt⟩ := filterRange_getD_char (downP y) (y.length - 1) (j + 1) hj1D
  have hsd : signB y ((filterRange (downP y) (y.length - 1)).getD (j + 1) 0) = true :=
    ((downP_true_iff y _ (by omega)).mp hdP).1
  have hinv := cnt_invariant y ((filterRange (downP y) (y.length - 1)).getD (j + 1) 0) (by omega)
  rw [hsd, hs0, if_pos rfl] at hinv
  have hmono := cnt_mono (upP y)
    ((filterRange (downP y) (y.length - 1)).getD (j + 1) 0) (y.length - 1) (by omega)
  have hcde : cnt (upP y) (y.length - 1)
      = (filterRange (upP y) (y.length - 1)).length := rfl
  refine ⟨by omega, ?_⟩
  exact filterRange_getD_lt (upP y) _ j _ (by omega) (by omega)

/-- When the curve starts positive, the `j`-th downcrossing exists and
precedes the `j`-th upcrossing (the inverted pairing of the balanced bad
case). -/
theorem down_lt_up_s1 (y : List ℚ) (hs0 : signB y 0 = true) (j : ℕ)
    (hjU : j < (upIdx y).length) :
    j < (downIdx y).length ∧ (downIdx y).getD j 0 < (upIdx y).getD j 0 := by
  rw [upIdx_eq_filterRange] at hjU ⊢
  rw [downIdx_eq_filterRange]
  obtain ⟨huP, hucnt, hult⟩ := filterRange_getD_char (upP y) (y.length - 1) j hjU
  have hsu : signB y ((filterRange (upP y) (y.length - 1)).getD j 0) = false :=
    ((upP_true_iff y _ (by omega)).mp huP).1
  have hinv := cnt_invariant y ((filterRange (upP y) (y.length - 1)).getD j 0) (by omega)
  rw [hsu, hs0, if_neg Bool.false_ne_true, if_pos rfl] at hinv
  have hmono := cnt_mono (downP y)
    ((filterRange (upP y) (y.length - 1)).getD j 0) (y.length - 1) (by omega)
  have hcde : cnt (downP y) (y.length - 1)
      = (filterRange (downP y) (y.length - 1)).length := rfl
  refine ⟨by omega, ?_⟩
  exact filterRange_getD_lt (downP y) _ j _ (by omega) (by omega)

/-! ## Validity of a well-interleaved pairing -/

theorem getD_lt_getD_of_sorted (x : List ℚ)
    (hs : List.Pairwise (fun a b : ℚ => a < b) x) (i j : ℕ) (hij : i < j)
    (hj : j < x.length) : x.getD i 0 < x.getD j 0 := by
  rw [List.getD_eq_getElem _ _ (by omega), List.getD_eq_getElem _ _ hj]
  exact List.pairwise_iff_getElem.mp hs i j (by omega) hj hij

theorem valid_of_pairing (x : List ℚ)
    (hs : List.Pairwise (fun a b : ℚ => a < b) x)
    (a b : List ℕ) (hlen : b.length = a.length)
    (hab : ∀ j, j < a.length → a.getD j 0 ≤ b.getD j 0)
    (hba : ∀ j, j + 1 < a.length → b.getD j 0 < a.getD (j + 1) 0)
    (hbx : ∀ j, j < a.length → b.getD j 0 < x.length) :
    validIntervalSet ((List.range a.length).map fun i =>
      (x.getD (a.getD i 0) 0, x.getD (b.getD i 0) 0)) := by
  have hax : ∀ j, j < a.length → a.getD j 0 < x.length := fun j hj =>
    lt_of_le_of_lt (hab j hj) (hbx j hj)
  have hchain : ∀ i j, i < j → j < a.length → b.getD i 0 < a.getD j 0 := by
    intro i j hij hj
    induction j with
    | zero => omega
    | succ m ih =>
      rcases Nat.eq_or_lt_of_le (Nat.le_of_lt_succ hij) with he | hlt
      · subst he; exact hba i hj
      · have h1 := ih hlt (by omega)
        have h2 := hab m (by omega)
        have h3 := hba m hj
        omega
  constructor
  · intro p hp
    rw [List.mem_map] at hp
    obtain ⟨i, hi, rfl⟩ := hp
    rw [List.mem_range] at hi
    rcases Nat.eq_or_lt_of_le (hab i hi) with he | hlt
    · simp only [he, le_refl]
    · exact le_of_lt (getD_lt_getD_of_sorted x hs _ _ hlt (hbx i hi))
  · rw [List.pairwise_iff_getElem]
    intro i j hi hj hij
    simp only [List.length_map, List.length_range] at hi hj
    simp only [List.getElem_map, List.getElem_range]
    exact getD_lt_getD_of_sorted x hs _ _ (hchain i j hij hj) (hax j hj)

/-! ## Amended claim C1 -/

/-- Amended claim C1: for every strictly ascending grid `x` and matching
curve `y` of length at least 2, the output of `construct_intervals` is a
valid IntervalSet (every pair ordered, pairwise disjoint, sorted ascending)
— provided the curve is not strictly positive at both boundary grid points
while having at least one crossing (in that balanced case the positional
pairing inverts every interval, as the counterexample shows). -/
theorem construct_intervals_valid (x y : List ℚ)
    (hlen : x.length = y.length) (h2 : 2 ≤ y.length)
    (hsort : List.Pairwise (fun a b : ℚ => a < b) x)
    (hcarve : 0 < y.headD 0 → 0 < y.getLastD 0 → upIdx y = [] ∧ downIdx y = []) :
    validIntervalSet (construct_intervals x y) := by
  by_cases hz : (upIdx y).length = 0 ∧ (downIdx y).length = 0
  · simp only [construct_intervals]
    rw [if_pos hz]
    constructor
    · intro p hp
      rw [List.mem_singleton] at hp
      subst hp
      rw [headD_eq_getD, getLastD_eq_getD]
      exact le_of_lt (getD_lt_getD_of_sorted x hsort 0 (x.length - 1) (by omega) (by omega))
    · simp
  · have htot := cnt_total y
    cases hs0 : signB y 0 <;> cases hsN : signB y (y.length - 1) <;>
      rw [hs0, hsN] at htot <;> simp at htot
    -- case: sign starts false, ends false (balanced, first crossing is up)
    · have hUD : (upIdx y).length = (downIdx y).length := by omega
      simp only [construct_intervals]
      rw [if_neg hz, if_neg (by omega : ¬ (((upIdx y).length : ℤ) - ((downIdx y).length : ℤ) = 1)),
        if_neg (by omega : ¬ (((upIdx y).length : ℤ) - ((downIdx y).length : ℤ) = -1))]
      apply valid_of_pairing x hsort (upIdx y) (downIdx y) hUD.symm
      · exact fun j hj => le_of_lt (up_lt_down y hs0 j (by omega) hj)
      · exact fun j hj => (down_lt_up_succ y hs0 j hj).2
      · intro j hj
        have := downIdx_getD_lt y j (by omega)
        omega
    -- case: sign starts false, ends true (one extra upcrossing)
    · have hUD : (upIdx y).length = (downIdx y).length + 1 := by omega
      simp only [construct_intervals]
      rw [if_neg hz, if_pos (by omega : ((upIdx y).length : ℤ) - ((downIdx y).length : ℤ) = 1),
        if_neg (by simp only [List.length_append, List.length_singleton]; omega :
          ¬ (((upIdx y).length : ℤ) - (((downIdx y ++ [x.length - 1]).length : ℕ) : ℤ) = -1))]
      apply valid_of_pairing x hsort (upIdx y) (downIdx y ++ [x.length - 1])
        (by simp only [List.length_append, List.length_singleton]; omega)
      · intro j hj
        rcases Nat.lt_or_ge j (downIdx y).length with hjD | hjD
        · rw [getD_append_left _ _ _ _ hjD]
          exact le_of_lt (up_lt_down y hs0 j hjD hj)
        · have hj' : j = (downIdx y).length := by omega
          subst hj'
          rw [getD_append_length]
          have := upIdx_getD_lt y _ hj
          omega
      · intro j hj
        rw [getD_append_left _ _ _ _ (by omega)]
        exact (down_lt_up_succ y hs0 j hj).2
      · intro j hj
        rcases Nat.lt_or_ge j (downIdx y).length with hjD | hjD
        · rw [getD_append_left _ _ _ _ hjD]
          have := downIdx_getD_lt y j hjD
          omega
        · have hj' : j = (downIdx y).length := by omega
          subst hj'
          rw [getD_append_length]
          omega
    -- case: sign starts true, ends false (one extra downcrossing)
    · have hUD : (downIdx y).length = (upIdx y).length + 1 := by omega
      simp only [construct_intervals]
      rw [if_neg hz, if_neg (by omega : ¬ (((upIdx y).length : ℤ) - ((downIdx y).length : ℤ) = 1)),
        if_pos (by omega : ((upIdx y).length : ℤ) - ((downIdx y).length : ℤ) = -1)]
      apply valid_of_pairing x hsort (0 :: upIdx y) (downIdx y)
        (by simp only [List.length_cons]; omega)
      · intro j hj
        cases j with
        | zero => exact Nat.zero_le _
        | succ m =>
          rw [List.getD_cons_succ]
          have hm : m + 1 < (downIdx y).length := by
            simp only [List.length_cons] at hj; omega
          exact le_of_lt (up_lt_down_succ_s1 y hs0 m hm).2
      · intro j hj
        simp only [List.length_cons] at hj
        rw [List.getD_cons_succ]
        exact (down_lt_up_s1 y hs0 j (by omega)).2
      · intro j hj
        simp only [List.length_cons] at hj
        have := downIdx_getD_lt y j (by omega)
        omega
    -- case: sign starts true, ends true with at least one crossing: excluded
    · exfalso
      have h0 : 0 < y.headD 0 := by
        rw [headD_eq_getD]
        exact of_decide_eq_true hs0
      have hL : 0 < y.getLastD 0 := by
        rw [getLastD_eq_getD]
        exact of_decide_eq_true hsN
      obtain ⟨he1, he2⟩ := hcarve h0 hL
      exact hz ⟨by rw [he1]; rfl, by rw [he2]; rfl⟩

/-- Witness for the amended C1 on a concrete curve with one balanced pair of
crossings starting non-positive. -/
theorem construct_intervals_valid_witness :
    validIntervalSet (construct_intervals [0, 1, 2, 3] [-1, 5, -2, -3]) := by
  apply construct_intervals_valid
  · rfl
  · norm_num
  · norm_num
  · intro h
    norm_num at h

/-! ## Round-trip recovery (claim C4)

A synthetic curve is built from a list `J` of disjoint closed intervals:
positive at grid points inside some interval of `J`, negative outside.  The
fineness hypotheses make "fine grid" precise: every interval holds a grid
point, every gap between consecutive intervals holds a grid point, and the
first interval starts after the first grid point while the last ends before
the last grid point. -/

/-- Membership of `t` in the `m`-th interval of `J` (closed). -/
def inInt (J : List (ℚ × ℚ)) (m : ℕ) (t : ℚ) : Prop :=
  (J.getD m (0, 0)).1 ≤ t ∧ t ≤ (J.getD m (0, 0)).2

/-- `t` lies in some interval of `J`. -/
def covered (J : List (ℚ × ℚ)) (t : ℚ) : Prop :=
  ∃ m < J.length, inInt J m t

/-- Hypotheses of the round-trip claim: a sorted disjoint interval list, a
strictly ascending grid matching the curve, the curve's sign agreeing with
interval membership, and the grid fine enough to see every interval, every
gap, and both outer margins. -/
structure RoundTrip (x y : List ℚ) (J : List (ℚ × ℚ)) : Prop where
  hxy : x.length = y.length
  hx2 : 2 ≤ x.length
  hsort : List.Pairwise (fun a b : ℚ => a < b) x
  hJord : ∀ p ∈ J, p.1 ≤ p.2
  hJsep : List.Pairwise (fun p q : ℚ × ℚ => p.2 < q.1) J
  hK : 1 ≤ J.length
  hsign_pos : ∀ i < y.length, covered J (x.getD i 0) → 0 < y.getD i 0
  hsign_neg : ∀ i < y.length, ¬ covered J (x.getD i 0) → y.getD i 0 < 0
  hf1 : ∀ m < J.length, ∃ i < x.length, inInt J m (x.getD i 0)
  hf2 : ∀ m, m + 1 < J.length → ∃ i < x.length,
    (J.getD m (0, 0)).2 < x.getD i 0 ∧ x.getD i 0 < (J.getD (m + 1) (0, 0)).1
  hb0 : x.getD 0 0 < (J.getD 0 (0, 0)).1
  hbK : (J.getD (J.length - 1) (0, 0)).2 < x.getD (x.length - 1) 0

theorem getD_le_getD_of_sorted (x : List ℚ)
    (hs : List.Pairwise (fun a b : ℚ => a < b) x) (i j : ℕ) (hij : i ≤ j)
    (hj : j < x.length) : x.getD i 0 ≤ x.getD j 0 := by
  rcases Nat.eq_or_lt_of_le hij with he | hlt
  · rw [he]
  · exact le_of_lt (getD_lt_getD_of_sorted x hs i j hlt hj)

theorem idx_lt_of_getD_lt (x : List ℚ)
    (hs : List.Pairwise (fun a b : ℚ => a < b) x) (i j : ℕ)
    (hi : i < x.length) (h : x.getD i 0 < x.getD j 0) : i < j := by
  by_contra hle
  push_neg at hle
  exact absurd (getD_le_getD_of_sorted x hs j i hle hi) (not_le.mpr h)

/-- Monotone interval endpoints of a sorted disjoint interval list, with
strict separation for distinct indices. -/
theorem J_mono (J : List (ℚ × ℚ)) (hJord : ∀ p ∈ J, p.1 ≤ p.2)
    (hJsep : List.Pairwise (fun p q : ℚ × ℚ => p.2 < q.1) J)
    (r s : ℕ) (hrs : r < s) (hs : s < J.length) :
    (J.getD r (0, 0)).2 < (J.getD s (0, 0)).1 := by
  rw [List.getD_eq_getElem _ _ (by omega), List.getD_eq_getElem _ _ hs]
  exact List.pairwise_iff_getElem.mp hJsep r s (by omega) hs hrs

theorem J_getD_ord (J : List (ℚ × ℚ)) (hJord : ∀ p ∈ J, p.1 ≤ p.2)
    (m : ℕ) (hm : m < J.length) : (J.getD m (0, 0)).1 ≤ (J.getD m (0, 0)).2 := by
  rw [List.getD_eq_getElem _ _ hm]
  exact hJord _ (List.getElem_mem hm)

theorem J_lo_mono (J : List (ℚ × ℚ)) (hJord : ∀ p ∈ J, p.1 ≤ p.2)
    (hJsep : List.Pairwise (fun p q : ℚ × ℚ => p.2 < q.1) J)
    (r s : ℕ) (hrs : r ≤ s) (hs : s < J.length) :
    (J.getD r (0, 0)).1 ≤ (J.getD s (0, 0)).1 := by
  rcases Nat.eq_or_lt_of_le hrs with he | hlt
  · rw [he]
  · have h1 := J_mono J hJord hJsep r s hlt hs
    have h2 := J_getD_ord J hJord r (by omega)
    linarith

theorem J_hi_mono (J : List (ℚ × ℚ)) (hJord : ∀ p ∈ J, p.1 ≤ p.2)
    (hJsep : List.Pairwise (fun p q : ℚ × ℚ => p.2 < q.1) J)
    (r s : ℕ) (hrs : r ≤ s) (hs : s < J.length) :
    (J.getD r (0, 0)).2 ≤ (J.getD s (0, 0)).2 := by
  rcases Nat.eq_or_lt_of_le hrs with he | hlt
  · rw [he]
  · have h1 := J_mono J hJord hJsep r s hlt hs
    have h2 := J_getD_ord J hJord s hs
    linarith

/-- Disjointness: a point lies in at most one interval of `J`. -/
theorem cover_unique (J : List (ℚ × ℚ)) (hJord : ∀ p ∈ J, p.1 ≤ p.2)
    (hJsep : List.Pairwise (fun p q : ℚ × ℚ => p.2 < q.1) J)
    (t : ℚ) (m m' : ℕ) (hm : m < J.length) (hm' : m' < J.length)
    (h1 : inInt J m t) (h2 : inInt J m' t) : m = m' := by
  by_contra hne
  rcases Nat.lt_or_ge m m' with hlt | hge
  · have := J_mono J hJord hJsep m m' hlt hm'
    have ha := h1.2
    have hb := h2.1
    linarith
  · have hlt : m' < m := by omega
    have := J_mono J hJord hJsep m' m hlt hm
    have ha := h2.2
    have hb := h1.1
    linarith

/-- The curve's sign at a grid point agrees with interval membership. -/
theorem sign_iff_covered (x y : List ℚ) (J : List (ℚ × ℚ)) (h : RoundTrip x y J)
    (i : ℕ) (hi : i < x.length) :
    signB y i = true ↔ covered J (x.getD i 0) := by
  have hiy : i < y.length := by rw [← h.hxy]; exact hi
  constructor
  · intro hs
    by_contra hnc
    have := h.hsign_neg i hiy hnc
    have hpos := of_decide_eq_true hs
    linarith
  · intro hc
    exact decide_eq_true (h.hsign_pos i hiy hc)

/-- The curve is negative at the first grid point. -/
theorem sign_zero_false (x y : List ℚ) (J : List (ℚ × ℚ)) (h : RoundTrip x y J) :
    signB y 0 = false := by
  rw [← Bool.not_eq_true, sign_iff_covered x y J h 0 (by have := h.hx2; omega)]
  rintro ⟨m, hm, hin⟩
  have hlo := J_lo_mono J h.hJord h.hJsep 0 m (by omega) hm
  have := h.hb0
  have := hin.1
  linarith

/-- The curve is negative at the last grid point. -/
theorem sign_last_false (x y : List ℚ) (J : List (ℚ × ℚ)) (h : RoundTrip x y J) :
    signB y (y.length - 1) = false := by
  have hxl : y.length - 1 < x.length := by
    have h1 := h.hxy
    have h2 := h.hx2
    omega
  rw [← Bool.not_eq_true, sign_iff_covered x y J h (y.length - 1) hxl]
  rintro ⟨m, hm, hin⟩
  have hhi := J_hi_mono J h.hJord h.hJsep m (J.length - 1) (by omega)
    (by have := h.hK; omega)
  have hbK := h.hbK
  have hx : x.getD (y.length - 1) 0 = x.getD (x.length - 1) 0 := by rw [h.hxy]
  rw [hx] at hin
  have := hin.2
  linarith

theorem upP_not_downP (y : List ℚ) (i : ℕ) (h : upP y i = true) :
    downP y i = false := by
  have h1 := of_decide_eq_true h
  refine decide_eq_false ?_
  intro h2
  rw [h1] at h2
  norm_num at h2

theorem downP_not_upP (y : List ℚ) (i : ℕ) (h : downP y i = true) :
    upP y i = false := by
  have h1 := of_decide_eq_true h
  refine decide_eq_false ?_
  intro h2
  rw [h1] at h2
  norm_num at h2

/-- With the curve negative at both grid boundaries, the up- and
downcrossings balance. -/
theorem U_eq_D (x y : List ℚ) (J : List (ℚ × ℚ)) (h : RoundTrip x y J) :
    (upIdx y).length = (downIdx y).length := by
  have htot := cnt_total y
  rw [sign_zero_false x y J h, sign_last_false x y J h,
    if_neg Bool.false_ne_true] at htot
  omega

/-- Element facts for upcrossing indices: the crossing predicate holds, the
sign is false at the index and true just after. -/
theorem upIdx_getD_sign (y : List ℚ) (m : ℕ) (hm : m < (upIdx y).length) :
    signB y ((upIdx y).getD m 0) = false ∧
      signB y ((upIdx y).getD m 0 + 1) = true := by
  rw [upIdx_eq_filterRange] at hm ⊢
  obtain ⟨hP, _, hlt⟩ := filterRange_getD_char (upP y) _ m hm
  exact (upP_true_iff y _ (by omega)).mp hP

/-- Element facts for downcrossing indices. -/
theorem downIdx_getD_sign (y : List ℚ) (m : ℕ) (hm : m < (downIdx y).length) :
    signB y ((downIdx y).getD m 0) = true ∧
      signB y ((downIdx y).getD m 0 + 1) = false := by
  rw [downIdx_eq_filterRange] at hm ⊢
  obtain ⟨hP, _, hlt⟩ := filterRange_getD_char (downP y) _ m hm
  exact (downP_true_iff y _ (by omega)).mp hP

/-- A positive grid point lies strictly inside some crossing block
`(up_m, down_m]`. -/
theorem sign_true_localize (y : List ℚ) (hs0 : signB y 0 = false)
    (hUD : (upIdx y).length = (downIdx y).length) (i : ℕ)
    (hiN : i ≤ y.length - 1) (hsi : signB y i = true) :
    ∃ m < (upIdx y).length,
      (upIdx y).getD m 0 < i ∧ i ≤ (downIdx y).getD m 0 := by
  have e1 : (upIdx y).length = cnt (upP y) (y.length - 1) := by
    rw [upIdx_eq_filterRange]; rfl
  have e2 : (downIdx y).length = cnt (downP y) (y.length - 1) := by
    rw [downIdx_eq_filterRange]; rfl
  rw [upIdx_eq_filterRange, downIdx_eq_filterRange]
  have hinv := cnt_invariant y i hiN
  rw [hsi, hs0, if_pos rfl, if_neg Bool.false_ne_true] at hinv
  have hcu : cnt (upP y) i = cnt (downP y) i + 1 := by omega
  have hmU : cnt (downP y) i < cnt (upP y) (y.length - 1) := by
    have := cnt_mono (upP y) i (y.length - 1) hiN
    omega
  refine ⟨cnt (downP y) i, hmU, ?_, ?_⟩
  · exact filterRange_getD_lt (upP y) _ _ i hmU (by omega)
  · by_contra hlt
    push_neg at hlt
    have hmD : cnt (downP y) i < cnt (downP y) (y.length - 1) := by omega
    have := cnt_lt_of_getD_lt (downP y) _ _ i hmD hlt
    omega

/-- The curve sign is constantly true strictly inside a crossing block. -/
theorem sign_true_on_block (y : List ℚ) (hs0 : signB y 0 = false) (m t : ℕ)
    (hmU : m < (upIdx y).length) (hmD : m < (downIdx y).length)
    (h1 : (upIdx y).getD m 0 < t) (h2 : t ≤ (downIdx y).getD m 0) :
    signB y t = true := by
  rw [upIdx_eq_filterRange] at hmU h1
  rw [downIdx_eq_filterRange] at hmD h2
  obtain ⟨huP, hucnt, hult⟩ := filterRange_getD_char (upP y) _ m hmU
  obtain ⟨hdP, hdcnt, hdlt⟩ := filterRange_getD_char (downP y) _ m hmD
  have hu1 : cnt (upP y) ((filterRange (upP y) (y.length - 1)).getD m 0 + 1)
      = m + 1 := by
    rw [cnt_succ, hucnt, if_pos huP]
  have hsd : signB y ((filterRange (downP y) (y.length - 1)).getD m 0) = true :=
    ((downP_true_iff y _ (by omega)).mp hdP).1
  have hinvd := cnt_invariant y
    ((filterRange (downP y) (y.length - 1)).getD m 0) (by omega)
  rw [hsd, hs0, if_pos rfl, if_neg Bool.false_ne_true] at hinvd
  have hsu : signB y ((filterRange (upP y) (y.length - 1)).getD m 0) = false :=
    ((upP_true_iff y _ (by omega)).mp huP).1
  have hinvu := cnt_invariant y
    ((filterRange (upP y) (y.length - 1)).getD m 0) (by omega)
  rw [hsu, hs0, if_neg Bool.false_ne_true] at hinvu
  have hdn_u : downP y ((filterRange (upP y) (y.length - 1)).getD m 0) = false :=
    upP_not_downP y _ huP
  have hd1 : cnt (downP y) ((filterRange (upP y) (y.length - 1)).getD m 0 + 1)
      = cnt (downP y) ((filterRange (upP y) (y.length - 1)).getD m 0) := by
    rw [cnt_succ, if_neg (by rw [hdn_u]; exact Bool.false_ne_true)]
    omega
  have hmono1 := cnt_mono (upP y)
    ((filterRange (upP y) (y.length - 1)).getD m 0 + 1) t (by omega)
  have hmono2 := cnt_mono (upP y) t
    ((filterRange (downP y) (y.length - 1)).getD m 0) h2
  have hmono3 := cnt_mono (downP y)
    ((filterRange (upP y) (y.length - 1)).getD m 0 + 1) t (by omega)
  have hmono4 := cnt_mono (downP y) t
    ((filterRange (downP y) (y.length - 1)).getD m 0) h2
  have hinvt := cnt_invariant y t (by omega)
  cases hst : signB y t
  · rw [hst, hs0, if_neg Bool.false_ne_true] at hinvt
    omega
  · rfl

/-- The curve sign is constantly false strictly inside a gap between
consecutive crossing blocks. -/
theorem sign_false_on_gap (y : List ℚ) (hs0 : signB y 0 = false) (m t : ℕ)
    (hmD : m < (downIdx y).length) (hm1U : m + 1 < (upIdx y).length)
    (h1 : (downIdx y).getD m 0 < t) (h2 : t ≤ (upIdx y).getD (m + 1) 0) :
    signB y t = false := by
  rw [upIdx_eq_filterRange] at hm1U h2
  rw [downIdx_eq_filterRange] at hmD h1
  obtain ⟨huP, hucnt, hult⟩ := filterRange_getD_char (upP y) _ (m + 1) hm1U
  obtain ⟨hdP, hdcnt, hdlt⟩ := filterRange_getD_char (downP y) _ m hmD
  have hd1 : cnt (downP y) ((filterRange (downP y) (y.length - 1)).getD m 0 + 1)
      = m + 1 := by
    rw [cnt_succ, hdcnt, if_pos hdP]
  have hsu : signB y ((filterRange (upP y) (y.length - 1)).getD (m + 1) 0) = false :=
    ((upP_true_iff y _ (by omega)).mp huP).1
  have hinvu := cnt_invariant y
    ((filterRange (upP y) (y.length - 1)).getD (m + 1) 0) (by omega)
  rw [hsu, hs0, if_neg Bool.false_ne_true] at hinvu
  have hsd : signB y ((filterRange (downP y) (y.length - 1)).getD m 0) = true :=
    ((downP_true_iff y _ (by omega)).mp hdP).1
  have hinvd := cnt_invariant y
    ((filterRange (downP y) (y.length - 1)).getD m 0) (by omega)
  rw [hsd, hs0, if_pos rfl, if_neg Bool.false_ne_true] at hinvd
  have hup_d : upP y ((filterRange (downP y) (y.length - 1)).getD m 0) = false :=
    downP_not_upP y _ hdP
  have hu1 : cnt (upP y) ((filterRange (downP y) (y.length - 1)).getD m 0 + 1)
      = cnt (upP y) ((filterRange (downP y) (y.length - 1)).getD m 0) := by
    rw [cnt_succ, if_neg (by rw [hup_d]; exact Bool.false_ne_true)]
    omega
  have hmono1 := cnt_mono (downP y)
    ((filterRange (downP y) (y.length - 1)).getD m 0 + 1) t (by omega)
  have hmono2 := cnt_mono (downP y) t
    ((filterRange (upP y) (y.length - 1)).getD (m + 1) 0) h2
  have hmono3 := cnt_mono (upP y)
    ((filterRange (downP y) (y.length - 1)).getD m 0 + 1) t (by omega)
  have hmono4 := cnt_mono (upP y) t
    ((filterRange (upP y) (y.length - 1)).getD (m + 1) 0) h2
  have hinvt := cnt_invariant y t (by omega)
  cases hst : signB y t
  · rfl
  · rw [hst, hs0, if_pos rfl, if_neg Bool.false_ne_true] at hinvt
    omega

/-- The curve sign is constantly false up to (and including) the first
upcrossing index. -/
theorem sign_false_before_first_up (y : List ℚ) (hs0 : signB y 0 = false) (t : ℕ)
    (h0U : 0 < (upIdx y).length) (ht : t ≤ (upIdx y).getD 0 0) :
    signB y t = false := by
  rw [upIdx_eq_filterRange] at h0U ht
  obtain ⟨huP, hucnt, hult⟩ := filterRange_getD_char (upP y) _ 0 h0U
  have hsu : signB y ((filterRange (upP y) (y.length - 1)).getD 0 0) = false :=
    ((upP_true_iff y _ (by omega)).mp huP).1
  have hinvu := cnt_invariant y
    ((filterRange (upP y) (y.length - 1)).getD 0 0) (by omega)
  rw [hsu, hs0, if_neg Bool.false_ne_true] at hinvu
  have hmono1 := cnt_mono (upP y) t
    ((filterRange (upP y) (y.length - 1)).getD 0 0) ht
  have hmono2 := cnt_mono (downP y) t
    ((filterRange (upP y) (y.length - 1)).getD 0 0) ht
  have hinvt := cnt_invariant y t (by omega)
  cases hst : signB y t
  · rfl
  · rw [hst, hs0, if_pos rfl, if_neg Bool.false_ne_true] at hinvt
    omega

/-- If the curve is positive on a whole index range, the covering intervals
of the two range ends coincide. -/
theorem same_block_interval (x y : List ℚ) (J : List (ℚ × ℚ)) (h : RoundTrip x y J)
    (a b : ℕ) (hab : a ≤ b) (hb : b < x.length)
    (hsgn : ∀ t, a ≤ t → t ≤ b → signB y t = true)
    (p q : ℕ) (hp : p < J.length) (hq : q < J.length)
    (hpa : inInt J p (x.getD a 0)) (hqb : inInt J q (x.getD b 0)) : p = q := by
  by_contra hne
  rcases Nat.lt_or_ge p q with hlt | hge
  · obtain ⟨g, hg, hg1, hg2⟩ := h.hf2 p (by omega)
    have ha1 : x.getD a 0 < x.getD g 0 := lt_of_le_of_lt hpa.2 hg1
    have hb1 : x.getD g 0 < x.getD b 0 := by
      have hlo := J_lo_mono J h.hJord h.hJsep (p + 1) q (by omega) hq
      have := hqb.1
      linarith
    have hag : a < g := idx_lt_of_getD_lt x h.hsort a g (by omega) ha1
    have hgb : g < b := idx_lt_of_getD_lt x h.hsort g b hg hb1
    have hsg : signB y g = true := hsgn g (by omega) (by omega)
    obtain ⟨r, hr, hrin⟩ := (sign_iff_covered x y J h g hg).mp hsg
    rcases Nat.lt_or_ge r (p + 1) with hrp | hrp
    · have hhi := J_hi_mono J h.hJord h.hJsep r p (by omega) hp
      have := hrin.2
      linarith
    · have hlo := J_lo_mono J h.hJord h.hJsep (p + 1) r hrp hr
      have := hrin.1
      linarith
  · have hlt : q < p := by omega
    have hsep := J_mono J h.hJord h.hJsep q p hlt hp
    have hxab : x.getD a 0 ≤ x.getD b 0 := getD_le_getD_of_sorted x h.hsort a b hab hb
    have h1 := hpa.1
    have h2 := hqb.2
    linarith

/-- Every crossing block is covered by a single interval of `J`, at both the
first positive grid point and the last. -/
theorem block_covered (x y : List ℚ) (J : List (ℚ × ℚ)) (h : RoundTrip x y J)
    (m : ℕ) (hmU : m < (upIdx y).length) :
    ∃ p < J.length, inInt J p (x.getD ((upIdx y).getD m 0 + 1) 0) ∧
      inInt J p (x.getD ((downIdx y).getD m 0) 0) := by
  have hs0 := sign_zero_false x y J h
  have hUD := U_eq_D x y J h
  have hmD : m < (downIdx y).length := by omega
  have hult := upIdx_getD_lt y m hmU
  have hdlt := downIdx_getD_lt y m hmD
  have hud : (upIdx y).getD m 0 < (downIdx y).getD m 0 := up_lt_down y hs0 m hmD hmU
  have hu1x : (upIdx y).getD m 0 + 1 < x.length := by
    have := h.hxy; omega
  have hdx : (downIdx y).getD m 0 < x.length := by
    have := h.hxy; omega
  have hsu1 : signB y ((upIdx y).getD m 0 + 1) = true := (upIdx_getD_sign y m hmU).2
  obtain ⟨p, hp, hpin⟩ := (sign_iff_covered x y J h _ hu1x).mp hsu1
  have hsd : signB y ((downIdx y).getD m 0) = true := (downIdx_getD_sign y m hmD).1
  obtain ⟨r, hr, hrin⟩ := (sign_iff_covered x y J h _ hdx).mp hsd
  have hpr : p = r := by
    refine same_block_interval x y J h ((upIdx y).getD m 0 + 1)
      ((downIdx y).getD m 0) (by omega) hdx ?_ p r hp hr hpin hrin
    intro t ht1 ht2
    exact sign_true_on_block y hs0 m t hmU hmD (by omega) ht2
  exact ⟨p, hp, hpin, hpr ▸ hrin⟩

/-- The `m`-th crossing block is covered exactly by the `m`-th interval of
`J`. -/
theorem block_index (x y : List ℚ) (J : List (ℚ × ℚ)) (h : RoundTrip x y J) :
    ∀ m, m < (upIdx y).length →
      m < J.length ∧ inInt J m (x.getD ((upIdx y).getD m 0 + 1) 0) ∧
        inInt J m (x.getD ((downIdx y).getD m 0) 0) := by
  have hs0 := sign_zero_false x y J h
  have hUD := U_eq_D x y J h
  intro m
  induction m with
  | zero =>
    intro h0U
    obtain ⟨p, hp, hp1, hp2⟩ := block_covered x y J h 0 h0U
    have hult := upIdx_getD_lt y 0 h0U
    have hu1x : (upIdx y).getD 0 0 + 1 < x.length := by have := h.hxy; omega
    have hp0 : p = 0 := by
      by_contra hne
      obtain ⟨i, hi, hin0⟩ := h.hf1 0 (by have := h.hK; omega)
      have hx1 : x.getD i 0 < x.getD ((upIdx y).getD 0 0 + 1) 0 := by
        have hsep := J_mono J h.hJord h.hJsep 0 p (by omega) hp
        have h1 := hin0.2
        have h2 := hp1.1
        linarith
      have hiu : i < (upIdx y).getD 0 0 + 1 := idx_lt_of_getD_lt x h.hsort i _ hi hx1
      have hsigni : signB y i = true :=
        (sign_iff_covered x y J h i hi).mpr ⟨0, by have := h.hK; omega, hin0⟩
      have := sign_false_before_first_up y hs0 i h0U (by omega)
      rw [this] at hsigni
      exact Bool.false_ne_true hsigni
    subst hp0
    exact ⟨hp, hp1, hp2⟩
  | succ m ih =>
    intro hm1U
    have hmU : m < (upIdx y).length := by omega
    obtain ⟨hmK, ihm1, ihm2⟩ := ih hmU
    obtain ⟨q, hq, hq1, hq2⟩ := block_covered x y J h (m + 1) hm1U
    have hdu := down_lt_up_succ y hs0 m hm1U
    have hult := upIdx_getD_lt y (m + 1) hm1U
    have hdlt := downIdx_getD_lt y m hdu.1
    have hu1x : (upIdx y).getD (m + 1) 0 + 1 < x.length := by have := h.hxy; omega
    have hux : (upIdx y).getD (m + 1) 0 < x.length := by have := h.hxy; omega
    have hdx : (downIdx y).getD m 0 < x.length := by have := h.hxy; omega
    have hq_gt : m < q := by
      by_contra hle
      push_neg at hle
      have hlo := J_lo_mono J h.hJord h.hJsep q m hle hmK
      have hxdu : x.getD ((downIdx y).getD m 0) 0 < x.getD ((upIdx y).getD (m + 1) 0) 0 :=
        getD_lt_getD_of_sorted x h.hsort _ _ hdu.2 hux
      have hxuu : x.getD ((upIdx y).getD (m + 1) 0) 0
          < x.getD ((upIdx y).getD (m + 1) 0 + 1) 0 :=
        getD_lt_getD_of_sorted x h.hsort _ _ (by omega) hu1x
      have hin : inInt J q (x.getD ((upIdx y).getD (m + 1) 0) 0) := by
        constructor
        · have := ihm2.1
          linarith
        · have := hq1.2
          linarith
      have hsu : signB y ((upIdx y).getD (m + 1) 0) = true :=
        (sign_iff_covered x y J h _ hux).mpr ⟨q, hq, hin⟩
      have hsu' := (upIdx_getD_sign y (m + 1) hm1U).1
      rw [hsu'] at hsu
      exact Bool.false_ne_true hsu
    have hq_le : q ≤ m + 1 := by
      by_contra hgt
      push_neg at hgt
      obtain ⟨i, hi, hin⟩ := h.hf1 (m + 1) (by omega)
      have hx1 : x.getD ((downIdx y).getD m 0) 0 < x.getD i 0 := by
        have hsep := J_mono J h.hJord h.hJsep m (m + 1) (by omega) (by omega)
        have h1 := ihm2.2
        have h2 := hin.1
        linarith
      have hx2 : x.getD i 0 < x.getD ((upIdx y).getD (m + 1) 0 + 1) 0 := by
        have hsep := J_mono J h.hJord h.hJsep (m + 1) q hgt hq
        have h1 := hin.2
        have h2 := hq1.1
        linarith
      have hdi : (downIdx y).getD m 0 < i := idx_lt_of_getD_lt x h.hsort _ i hdx hx1
      have hiu : i < (upIdx y).getD (m + 1) 0 + 1 := idx_lt_of_getD_lt x h.hsort i _ hi hx2
      have hsigni : signB y i = true :=
        (sign_iff_covered x y J h i hi).mpr ⟨m + 1, by omega, hin⟩
      have := sign_false_on_gap y hs0 m i hdu.1 hm1U hdi (by omega)
      rw [this] at hsigni
      exact Bool.false_ne_true hsigni
    have hq_eq : q = m + 1 := by omega
    subst hq_eq
    exact ⟨hq, hq1, hq2⟩

/-- The number of upcrossings equals the number of intervals of `J`. -/
theorem U_eq_K (x y : List ℚ) (J : List (ℚ × ℚ)) (h : RoundTrip x y J) :
    (upIdx y).length = J.length := by
  have hs0 := sign_zero_false x y J h
  have hUD := U_eq_D x y J h
  have e1 : (upIdx y).length = cnt (upP y) (y.length - 1) := by
    rw [upIdx_eq_filterRange]; rfl
  have e2 : (downIdx y).length = cnt (downP y) (y.length - 1) := by
    rw [downIdx_eq_filterRange]; rfl
  have hU1 : 0 < (upIdx y).length := by
    by_contra h0
    push_neg at h0
    obtain ⟨i, hi, hin⟩ := h.hf1 0 (by have := h.hK; omega)
    have hsi : signB y i = true :=
      (sign_iff_covered x y J h i hi).mpr ⟨0, by have := h.hK; omega, hin⟩
    have hiN : i ≤ y.length - 1 := by
      have := h.hxy; have := h.hx2; omega
    have hinv := cnt_invariant y i hiN
    rw [hsi, hs0, if_pos rfl, if_neg Bool.false_ne_true] at hinv
    have hm1 := cnt_mono (upP y) i (y.length - 1) hiN
    omega
  have hUK : (upIdx y).length ≤ J.length := by
    have := (block_index x y J h ((upIdx y).length - 1) (by omega)).1
    omega
  rcases Nat.eq_or_lt_of_le hUK with he | hlt
  · exact he
  · exfalso
    obtain ⟨i, hi, hin⟩ := h.hf1 (upIdx y).length hlt
    have hsi : signB y i = true :=
      (sign_iff_covered x y J h i hi).mpr ⟨(upIdx y).length, hlt, hin⟩
    have hiN : i ≤ y.length - 1 := by
      have := h.hxy; have := h.hx2; omega
    obtain ⟨m, hmU, hui, hid⟩ := sign_true_localize y hs0 hUD i hiN hsi
    obtain ⟨hmK, hblk1, hblk2⟩ := block_index x y J h m hmU
    have hult := upIdx_getD_lt y m hmU
    have hu1x : (upIdx y).getD m 0 + 1 < x.length := by have := h.hxy; omega
    have hmq := same_block_interval x y J h ((upIdx y).getD m 0 + 1) i (by omega) hi
      (fun t ht1 ht2 => sign_true_on_block y hs0 m t hmU (by omega) (by omega)
        (le_trans ht2 hid))
      m (upIdx y).length hmK hlt hblk1 hin
    omega

/-- In the balanced non-empty case the extractor pairs the crossing lists
positionally with no boundary fix. -/
theorem construct_intervals_balanced (x y : List ℚ)
    (hUD : (upIdx y).length = (downIdx y).length) (hU0 : (upIdx y).length ≠ 0) :
    construct_intervals x y = (List.range (upIdx y).length).map
      (fun i => (x.getD ((upIdx y).getD i 0) 0, x.getD ((downIdx y).getD i 0) 0)) := by
  simp only [construct_intervals]
  rw [if_neg (by omega), if_neg (by omega : ¬ (((upIdx y).length : ℤ)
      - ((downIdx y).length : ℤ) = 1)),
    if_neg (by omega : ¬ (((upIdx y).length : ℤ) - ((downIdx y).length : ℤ) = -1))]

/-- Claim C4 (round-trip): a synthetic curve, positive exactly at grid points
inside the intervals of a sorted disjoint list `J` and negative outside,
sampled on a grid fine enough to see every interval, every gap and both outer
margins, is mapped by `construct_intervals` to exactly `J.length` intervals;
the `m`-th returned left endpoint is the grid point immediately left of the
`m`-th original `lo` and the `m`-th returned right endpoint is the grid point
immediately left of (or at) the `m`-th original `hi` — each within one grid
spacing of the original. -/
theorem construct_intervals_roundtrip (x y : List ℚ) (J : List (ℚ × ℚ))
    (h : RoundTrip x y J) :
    (construct_intervals x y).length = J.length ∧
    ∀ m, m < J.length →
      (∃ i, i + 1 < x.length ∧
        ((construct_intervals x y).getD m (0, 0)).1 = x.getD i 0 ∧
        x.getD i 0 < (J.getD m (0, 0)).1 ∧ (J.getD m (0, 0)).1 ≤ x.getD (i + 1) 0) ∧
      (∃ i, i + 1 < x.length ∧
        ((construct_intervals x y).getD m (0, 0)).2 = x.getD i 0 ∧
        x.getD i 0 ≤ (J.getD m (0, 0)).2 ∧ (J.getD m (0, 0)).2 < x.getD (i + 1) 0) := by
  have hs0 := sign_zero_false x y J h
  have hUD := U_eq_D x y J h
  have hUK := U_eq_K x y J h
  have hU0 : (upIdx y).length ≠ 0 := by have := h.hK; omega
  have hrw := construct_intervals_balanced x y hUD hU0
  constructor
  · rw [hrw, List.length_map, List.length_range]; exact hUK
  · intro m hm
    have hmU : m < (upIdx y).length := by omega
    have hmD : m < (downIdx y).length := by omega
    obtain ⟨hmK, hblk1, hblk2⟩ := block_index x y J h m hmU
    have hult := upIdx_getD_lt y m hmU
    have hdlt := downIdx_getD_lt y m hmD
    have hu1x : (upIdx y).getD m 0 + 1 < x.length := by have := h.hxy; omega
    have hd1x : (downIdx y).getD m 0 + 1 < x.length := by have := h.hxy; omega
    rw [hrw, getD_range_map _ _ _ _ hmU]
    constructor
    · refine ⟨(upIdx y).getD m 0, hu1x, rfl, ?_, hblk1.1⟩
      by_contra hle
      push_neg at hle
      have hxu : x.getD ((upIdx y).getD m 0) 0 < x.getD ((upIdx y).getD m 0 + 1) 0 :=
        getD_lt_getD_of_sorted x h.hsort _ _ (by omega) hu1x
      have hcov : covered J (x.getD ((upIdx y).getD m 0) 0) := by
        refine ⟨m, hmK, hle, ?_⟩
        have := hblk1.2
        linarith
      have hsu := (upIdx_getD_sign y m hmU).1
      have hctr := (sign_iff_covered x y J h _ (by omega)).mpr hcov
      rw [hsu] at hctr
      exact Bool.false_ne_true hctr
    · refine ⟨(downIdx y).getD m 0, hd1x, rfl, hblk2.2, ?_⟩
      by_contra hle
      push_neg at hle
      have hxd : x.getD ((downIdx y).getD m 0) 0 < x.getD ((downIdx y).getD m 0 + 1) 0 :=
        getD_lt_getD_of_sorted x h.hsort _ _ (by omega) hd1x
      have hcov : covered J (x.getD ((downIdx y).getD m 0 + 1) 0) := by
        refine ⟨m, hmK, ?_, hle⟩
        have := hblk2.1
        linarith
      have hsd := (downIdx_getD_sign y m hmD).2
      have hctr := (sign_iff_covered x y J h _ hd1x).mpr hcov
      rw [hsd] at hctr
      exact Bool.false_ne_true hctr

/-! ## The concrete 1001-point scenario for C4 -/

/-- 1001 equally spaced grid points over `[0, 1]`. -/
def grid1001 : List ℚ := (List.range 1001).map fun i : ℕ => (i : ℚ) / 1000

/-- Synthetic curve: `1` inside `[0.2, 0.4] ∪ [0.6, 0.9]`, `-1` outside. -/
def curve1001 : List ℚ := (List.range 1001).map fun i : ℕ =>
  if (200 ≤ i ∧ i ≤ 400) ∨ (600 ≤ i ∧ i ≤ 900) then (1 : ℚ) else -1

/-- The original interval list `[[0.2, 0.4], [0.6, 0.9]]`. -/
def J1001 : List (ℚ × ℚ) := [(1/5, 2/5), (3/5, 9/10)]

theorem grid1001_getD (i : ℕ) (h : i < 1001) :
    grid1001.getD i 0 = (i : ℚ) / 1000 := by
  unfold grid1001
  exact getD_range_map _ _ _ _ h

theorem curve1001_getD (i : ℕ) (h : i < 1001) :
    curve1001.getD i 0
      = if (200 ≤ i ∧ i ≤ 400) ∨ (600 ≤ i ∧ i ≤ 900) then (1 : ℚ) else -1 := by
  unfold curve1001
  exact getD_range_map _ _ _ _ h

theorem covered1001 (i : ℕ) :
    covered J1001 ((i : ℚ) / 1000) ↔
      ((200 ≤ i ∧ i ≤ 400) ∨ (600 ≤ i ∧ i ≤ 900)) := by
  constructor
  · rintro ⟨m, hm, h1, h2⟩
    have hm2 : m = 0 ∨ m = 1 := by
      have : m < 2 := by simpa [J1001] using hm
      omega
    rcases hm2 with rfl | rfl
    · simp only [J1001, List.getD_cons_zero] at h1 h2
      left
      constructor
      · rw [div_le_div_iff (by norm_num) (by norm_num)] at h1
        have : (200 : ℚ) ≤ (i : ℚ) := by linarith
        exact_mod_cast this
      · rw [div_le_div_iff (by norm_num) (by norm_num)] at h2
        have : (i : ℚ) ≤ 400 := by linarith
        exact_mod_cast this
    · simp only [J1001, List.getD_cons_succ, List.getD_cons_zero] at h1 h2
      right
      constructor
      · rw [div_le_div_iff (by norm_num) (by norm_num)] at h1
        have : (600 : ℚ) ≤ (i : ℚ) := by linarith
        exact_mod_cast this
      · rw [div_le_div_iff (by norm_num) (by norm_num)] at h2
        have : (i : ℚ) ≤ 900 := by linarith
        exact_mod_cast this
  · rintro (⟨ha, hb⟩ | ⟨ha, hb⟩)
    · refine ⟨0, by simp [J1001], ?_, ?_⟩
      · simp only [J1001, List.getD_cons_zero]
        rw [div_le_div_iff (by norm_num) (by norm_num)]
        have : (200 : ℚ) ≤ (i : ℚ) := by exact_mod_cast ha
        linarith
      · simp only [J1001, List.getD_cons_zero]
        rw [div_le_div_iff (by norm_num) (by norm_num)]
        have : (i : ℚ) ≤ 400 := by exact_mod_cast hb
        linarith
    · refine ⟨1, by simp [J1001], ?_, ?_⟩
      · simp only [J1001, List.getD_cons_succ, List.getD_cons_zero]
        rw [div_le_div_iff (by norm_num) (by norm_num)]
        have : (600 : ℚ) ≤ (i : ℚ) := by exact_mod_cast ha
        linarith
      · simp only [J1001, List.getD_cons_succ, List.getD_cons_zero]
        rw [div_le_div_iff (by norm_num) (by norm_num)]
        have : (i : ℚ) ≤ 900 := by exact_mod_cast hb
        linarith

theorem roundtrip1001 : RoundTrip grid1001 curve1001 J1001 := by
  constructor
  · simp [grid1001, curve1001]
  · simp [grid1001]
  · unfold grid1001
    rw [List.pairwise_map]
    have hbase : List.Pairwise (· < ·) (List.range 1001) := List.pairwise_lt_range 1001
    refine hbase.imp ?_
    intro a b hab
    rw [div_lt_div_iff_of_pos_right (by norm_num)]
    exact_mod_cast hab
  · intro p hp
    simp only [J1001, List.mem_cons, List.mem_singleton] at hp
    rcases hp with rfl | rfl | hf
    · norm_num
    · norm_num
    · simp at hf
  · unfold J1001
    refine List.Pairwise.cons ?_ ?_
    · intro q hq
      rw [List.mem_singleton] at hq
      subst hq
      norm_num
    · simp
  · simp [J1001]
  · intro i hi hcov
    have hi' : i < 1001 := by simpa [curve1001] using hi
    rw [grid1001_getD i hi'] at hcov
    rw [curve1001_getD i hi', if_pos ((covered1001 i).mp hcov)]
    norm_num
  · intro i hi hcov
    have hi' : i < 1001 := by simpa [curve1001] using hi
    rw [grid1001_getD i hi'] at hcov
    rw [curve1001_getD i hi', if_neg (fun hc => hcov ((covered1001 i).mpr hc))]
    norm_num
  · intro m hm
    have hm2 : m = 0 ∨ m = 1 := by
      have : m < 2 := by simpa [J1001] using hm
      omega
    rcases hm2 with rfl | rfl
    · refine ⟨200, by simp [grid1001], ?_⟩
      rw [grid1001_getD 200 (by norm_num)]
      constructor
      · simp only [J1001, List.getD_cons_zero]
        norm_num
      · simp only [J1001, List.getD_cons_zero]
        norm_num
    · refine ⟨600, by simp [grid1001], ?_⟩
      rw [grid1001_getD 600 (by norm_num)]
      constructor
      · simp only [J1001, List.getD_cons_succ, List.getD_cons_zero]
        norm_num
      · simp only [J1001, List.getD_cons_succ, List.getD_cons_zero]
        norm_num
  · intro m hm
    have hm2 : m = 0 := by
      have : m + 1 < 2 := by simpa [J1001] using hm
      omega
    subst hm2
    refine ⟨500, by simp [grid1001], ?_, ?_⟩
    · simp only [J1001, List.getD_cons_zero]
      rw [grid1001_getD 500 (by norm_num)]
      norm_num
    · simp only [J1001, List.getD_cons_succ, List.getD_cons_zero]
      rw [grid1001_getD 500 (by norm_num)]
      norm_num
  · rw [grid1001_getD 0 (by norm_num)]
    simp only [J1001, List.getD_cons_zero]
    norm_num
  · rw [show J1001.length - 1 = 1 from by simp [J1001],
      show grid1001.length - 1 = 1000 from by simp [grid1001],
      grid1001_getD 1000 (by norm_num)]
    simp only [J1001, List.getD_cons_succ, List.getD_cons_zero]
    norm_num

theorem grid1001_spacing (i : ℕ) (h : i + 1 < 1001) :
    grid1001.getD (i + 1) 0 - grid1001.getD i 0 = 1 / 1000 := by
  rw [grid1001_getD (i + 1) h, grid1001_getD i (by omega)]
  push_cast
  ring

/-- Witness for C4 at the documented scenario: two intervals are recovered,
each boundary within one grid step (`1/1000`) of `0.2 / 0.4 / 0.6 / 0.9`. -/
theorem construct_intervals_roundtrip_witness :
    (construct_intervals grid1001 curve1001).length = 2 ∧
    ∀ m, m < 2 →
      |((construct_intervals grid1001 curve1001).getD m (0, 0)).1
        - (J1001.getD m (0, 0)).1| ≤ 1 / 1000 ∧
      |((construct_intervals grid1001 curve1001).getD m (0, 0)).2
        - (J1001.getD m (0, 0)).2| ≤ 1 / 1000 := by
  obtain ⟨hlen, hloc⟩ := construct_intervals_roundtrip grid1001 curve1001 J1001 roundtrip1001
  have hK2 : J1001.length = 2 := by simp [J1001]
  refine ⟨by rw [hlen, hK2], ?_⟩
  intro m hm
  obtain ⟨⟨i, hi1, hie, hilo, hihi⟩, ⟨j, hj1, hje, hjlo, hjhi⟩⟩ := hloc m (by omega)
  have hglen : grid1001.length = 1001 := by simp [grid1001]
  constructor
  · rw [hie]
    have hsp := grid1001_spacing i (by omega)
    rw [abs_le]
    constructor <;> linarith
  · rw [hje]
    have hsp := grid1001_spacing j (by omega)
    rw [abs_le]
    constructor <;> linarith

/-! ## `get_intervals` (claim C5) -/

/-- `np.max` of an array (left fold of the tail over the head; default for
the empty array). -/
def listMaxD (l : List ℚ) (d : ℚ) : ℚ :=
  match l with
  | [] => d
  | h :: t => t.foldl max h

/-- The per-dimension curve of `get_intervals` (`src/swyft/interface.py`):
`lnL[:, i] - lnL[:, i].max() - np.log(threshold)`.  `lnL j i` abstracts the
external estimator output `get_lnL` at grid row `j` and parameter dimension
`i`; `np.log(threshold)` is the abstract parameter `logThreshold`. -/
def ratioCurve (lnL : ℕ → ℕ → ℚ) (nbins : ℕ) (logThreshold : ℚ) (i : ℕ) : List ℚ :=
  ((List.range nbins).map fun j : ℕ => lnL j i).map
    fun v => v - listMaxD ((List.range nbins).map fun j : ℕ => lnL j i) 0 - logThreshold

/-- `torch.linspace(0, 1, nbins)`: the dense evaluation grid `z[:, i]`. -/
def linspace01 (nbins : ℕ) : List ℚ :=
  (List.range nbins).map fun j : ℕ => (j : ℚ) / ((nbins : ℚ) - 1)

/-- Shallow embedding of `get_intervals` (`src/swyft/interface.py`): one
`construct_intervals` call per parameter dimension on the shifted log-ratio
curve. -/
def get_intervals (lnL : ℕ → ℕ → ℚ) (nbins zdim : ℕ) (logThreshold : ℚ) :
    List (List (ℚ × ℚ)) :=
  (List.range zdim).map fun i : ℕ =>
    construct_intervals (linspace01 nbins) (ratioCurve lnL nbins logThreshold i)

/-- Claim C5: `get_intervals` produces exactly one interval list per
parameter dimension, each obtained by `construct_intervals` on the shifted
curve, and that curve is strictly positive at grid point `j` exactly when
the estimator's log-ratio there exceeds the grid maximum plus
`log(threshold)`. -/
theorem get_intervals_threshold (lnL : ℕ → ℕ → ℚ) (nbins zdim : ℕ)
    (logThreshold : ℚ) :
    (get_intervals lnL nbins zdim logThreshold).length = zdim ∧
    (∀ i, i < zdim → (get_intervals lnL nbins zdim logThreshold).getD i []
      = construct_intervals (linspace01 nbins) (ratioCurve lnL nbins logThreshold i)) ∧
    (∀ i j, j < nbins →
      (0 < (ratioCurve lnL nbins logThreshold i).getD j 0 ↔
        listMaxD ((List.range nbins).map fun j : ℕ => lnL j i) 0 + logThreshold
          < lnL j i)) := by
  refine ⟨by simp [get_intervals], ?_, ?_⟩
  · intro i hi
    exact getD_range_map _ _ _ _ hi
  · intro i j hj
    have hc : (ratioCurve lnL nbins logThreshold i).getD j 0
        = lnL j i - listMaxD ((List.range nbins).map fun j : ℕ => lnL j i) 0
          - logThreshold := by
      unfold ratioCurve
      rw [List.map_map]
      exact getD_range_map _ _ _ _ hj
    rw [hc]
    constructor <;> intro <;> linarith

/-- Witness for C5 at a concrete two-dimensional estimator with three grid
rows. -/
theorem get_intervals_threshold_witness :
    (get_intervals (fun j i => (j : ℚ) + i) 3 2 (-10)).length = 2 ∧
    (∀ i, i < 2 → (get_intervals (fun j i => (j : ℚ) + i) 3 2 (-10)).getD i []
      = construct_intervals (linspace01 3) (ratioCurve (fun j i => (j : ℚ) + i) 3 (-10) i)) ∧
    (∀ i j, j < 3 →
      (0 < (ratioCurve (fun j i => (j : ℚ) + i) 3 (-10) i).getD j 0 ↔
        listMaxD ((List.range 3).map fun j : ℕ => (j : ℚ) + i) 0 + (-10)
          < (j : ℚ) + i)) :=
  get_intervals_threshold (fun j i => (j : ℚ) + i) 3 2 (-10)

/-! ## `advance_train_history` (claims C6 and C7)

`Mask1d`, `FactorMask`, `Intensity` and `DataStore.sample` live in
`swyft.core`, which is not under `src/`; they are modelled from the spec as
the data they carry, and the store's `sample` is an abstract function. -/

/-- Modelled from the spec: `Mask1d` is an IntervalSet on one scalar axis —
"ordered sequence of `(lo, hi)` pairs". -/
structure Mask1d where
  intervals : List (ℚ × ℚ)

/-- Modelled from the spec: `FactorMask` is a FactorRegion — "a tuple of one
IntervalSet per parameter dimension". -/
structure FactorMask where
  masks : List Mask1d

/-- Modelled from the spec: `Intensity` "couples a target total-sample count
with a FactorRegion". -/
structure Intensity where
  nsamples : ℕ
  factormask : FactorMask

/-- One `train_history` record: `dict(indices=indices, intensity=intensity)`. -/
structure TrainRecord where
  indices : List ℕ
  intensity : Intensity

/-- The slice of the `SWYFT` object state that `advance_train_history` reads
and writes. -/
structure SwyftState where
  zdim : ℕ
  train_history : List TrainRecord

/-- The 1-dim masks built by `advance_train_history`: on an empty history,
`Mask1d([[0., 1.]])` repeated `zdim` times; otherwise one `Mask1d` per
interval list of `get_intervals` (passed abstractly as `intervalsList`, since
it depends on the previous round's trained network). -/
def advance_masks (s : SwyftState) (intervalsList : List (List (ℚ × ℚ))) :
    List Mask1d :=
  if s.train_history.length = 0 then List.replicate s.zdim (Mask1d.mk [(0, 1)])
  else intervalsList.map Mask1d.mk

/-- The intensity object built by one `advance_train_history` call:
`Intensity(nsamples, FactorMask(masks_1d))`. -/
def advance_intensity (s : SwyftState) (nsamples : ℕ)
    (intervalsList : List (List (ℚ × ℚ))) : Intensity :=
  Intensity.mk nsamples (FactorMask.mk (advance_masks s intervalsList))

/-- Shallow embedding of `advance_train_history` (`src/swyft/interface.py`):
build the masks and the intensity, draw indices from the store (`sample`
abstracts `swyft.core.DataStore.sample`), and append the round record to
`train_history`. -/
def advance_train_history (s : SwyftState) (sample : Intensity → List ℕ)
    (nsamples : ℕ) (intervalsList : List (List (ℚ × ℚ))) : SwyftState :=
  { s with train_history := s.train_history ++
      [TrainRecord.mk (sample (advance_intensity s nsamples intervalsList))
        (advance_intensity s nsamples intervalsList)] }

/-- Claim C6: on the first call (empty `train_history`, round 0) the region
used to build the intensity is the full unit cube — the IntervalSet
`[[0, 1]]` for every one of the `zdim` parameter dimensions. -/
theorem advance_train_history_unit_cube (s : SwyftState)
    (sample : Intensity → List ℕ) (nsamples : ℕ)
    (ivs : List (List (ℚ × ℚ))) (h : s.train_history = []) :
    ((advance_train_history s sample nsamples ivs).train_history.getLastD
        (TrainRecord.mk [] (Intensity.mk 0 (FactorMask.mk [])))).intensity.factormask.masks
      = List.replicate s.zdim (Mask1d.mk [(0, 1)]) := by
  simp [advance_train_history, advance_intensity, advance_masks, h]

/-- Witness for C6 on a concrete two-dimensional state. -/
theorem advance_train_history_unit_cube_witness :
    ((advance_train_history (SwyftState.mk 2 []) (fun _ => []) 5
        [[(0, 1/2)]]).train_history.getLastD
        (TrainRecord.mk [] (Intensity.mk 0 (FactorMask.mk [])))).intensity.factormask.masks
      = List.replicate 2 (Mask1d.mk [(0, 1)]) :=
  advance_train_history_unit_cube (SwyftState.mk 2 []) (fun _ => []) 5 [[(0, 1/2)]] rfl

/-- Claim C7: every `advance_train_history` call appends exactly one record
— holding that round's index list and intensity object — and leaves every
previously stored record unchanged. -/
theorem advance_train_history_appends_one (s : SwyftState)
    (sample : Intensity → List ℕ) (nsamples : ℕ)
    (ivs : List (List (ℚ × ℚ))) :
    (advance_train_history s sample nsamples ivs).train_history
      = s.train_history ++ [TrainRecord.mk
          (sample (advance_intensity s nsamples ivs))
          (advance_intensity s nsamples ivs)] ∧
    (advance_train_history s sample nsamples ivs).train_history.length
      = s.train_history.length + 1 ∧
    (advance_train_history s sample nsamples ivs).train_history.take
        s.train_history.length = s.train_history := by
  refine ⟨rfl, by simp [advance_train_history], ?_⟩
  simp [advance_train_history]

/-! ## SimulationStore (claim C8)

`DataStore` lives in `swyft.core`, which is not under `src/`; the store is
modelled from the spec (§4.5): an append-only sequence of
(parameter draw, observation-or-pending) entries with stable integer
indices, `fill` failing with `AlreadyFilledError` on a second fill. -/

/-- Modelled from the spec: the `SimulationStore`'s append-only entry list;
each entry holds a parameter draw and an optional (pending when `none`)
observation. -/
structure SimulationStore where
  entries : List (List ℚ × Option (List ℚ))

/-- Store errors named by the spec (§7). -/
inductive StoreError where
  | AlreadyFilledError
  | InvalidIndexError
deriving DecidableEq

/-- Modelled from the spec: `append(draw)` adds a new pending entry and
returns its stable index. -/
def storeAppend (s : SimulationStore) (draw : List ℚ) : SimulationStore × ℕ :=
  (SimulationStore.mk (s.entries ++ [(draw, none)]), s.entries.length)

/-- Modelled from the spec: `pending_indices()` — all indices whose
observation has not yet been filled. -/
def pending_indices (s : SimulationStore) : List ℕ :=
  (List.range s.entries.length).filter fun i => ((s.entries.getD i ([], none)).2).isNone

/-- Modelled from the spec: `fill(index, observation)` sets the observation
for a pending index and fails with `AlreadyFilledError` when the index
already holds one (the simulate-once invariant). -/
def fill (s : SimulationStore) (index : ℕ) (obs : List ℚ) :
    Except StoreError SimulationStore :=
  match s.entries.get? index with
  | none => .error .InvalidIndexError
  | some (_, some _) => .error .AlreadyFilledError
  | some (draw, none) => .ok (SimulationStore.mk (s.entries.set index (draw, some obs)))

/-- A store operation issued during any later round. -/
inductive StoreOp where
  | append (draw : List ℚ)
  | fillOp (index : ℕ) (obs : List ℚ)

def applyOp (s : SimulationStore) : StoreOp → SimulationStore
  | .append draw => (storeAppend s draw).1
  | .fillOp i o =>
    match fill s i o with
    | .ok s' => s'
    | .error _ => s

def applyOps (s : SimulationStore) (ops : List StoreOp) : SimulationStore :=
  ops.foldl applyOp s

/-- An index holding an observation. -/
def filledAt (s : SimulationStore) (i : ℕ) : Prop :=
  ∃ d v, s.entries.get? i = some (d, some v)

theorem fill_ok_filledAt (s s' : SimulationStore) (i : ℕ) (o : List ℚ)
    (h : fill s i o = .ok s') : filledAt s' i := by
  unfold fill at h
  cases hg : s.entries.get? i with
  | none => rw [hg] at h; exact absurd h (by simp)
  | some e =>
    obtain ⟨d, ov⟩ := e
    cases ov with
    | some v => rw [hg] at h; exact absurd h (by simp)
    | none =>
      rw [hg] at h
      simp only [Except.ok.injEq] at h
      subst h
      refine ⟨d, o, ?_⟩
      have hi : i < s.entries.length := by
        by_contra hge
        push_neg at hge
        rw [List.get?_eq_getElem?, List.getElem?_eq_none hge] at hg
        exact absurd hg (by simp)
      rw [List.get?_eq_getElem?, List.getElem?_set_eq_of_lt _ hi]

theorem filledAt_applyOp (s : SimulationStore) (op : StoreOp) (i : ℕ)
    (h : filledAt s i) : filledAt (applyOp s op) i := by
  obtain ⟨d, v, hg⟩ := h
  have hi : i < s.entries.length := by
    by_contra hge
    push_neg at hge
    rw [List.get?_eq_getElem?, List.getElem?_eq_none hge] at hg
    exact absurd hg (by simp)
  cases op with
  | append draw =>
    refine ⟨d, v, ?_⟩
    simp only [applyOp, storeAppend]
    rw [List.get?_eq_getElem?, List.getElem?_append_left hi]
    rw [List.get?_eq_getElem?] at hg
    exact hg
  | fillOp j o =>
    simp only [applyOp]
    cases hf : fill s j o with
    | error e => exact ⟨d, v, hg⟩
    | ok s' =>
      unfold fill at hf
      cases hgj : s.entries.get? j with
      | none => rw [hgj] at hf; exact absurd hf (by simp)
      | some e =>
        obtain ⟨dj, ovj⟩ := e
        cases ovj with
        | some vj => rw [hgj] at hf; exact absurd hf (by simp)
        | none =>
          rw [hgj] at hf
          simp only [Except.ok.injEq] at hf
          subst hf
          have hne : j ≠ i := by
            intro he
            subst he
            rw [hg] at hgj
            simp at hgj
          refine ⟨d, v, ?_⟩
          rw [List.get?_eq_getElem?, List.getElem?_set_ne hne]
          rw [List.get?_eq_getElem?] at hg
          exact hg

theorem filledAt_applyOps (ops : List StoreOp) (s : SimulationStore) (i : ℕ)
    (h : filledAt s i) : filledAt (applyOps s ops) i := by
  induction ops generalizing s with
  | nil => exact h
  | cons op rest ih => exact ih (applyOp s op) (filledAt_applyOp s op i h)

theorem fill_filledAt_fails (s : SimulationStore) (i : ℕ) (o : List ℚ)
    (h : filledAt s i) : fill s i o = .error .AlreadyFilledError := by
  obtain ⟨d, v, hg⟩ := h
  unfold fill
  rw [hg]

theorem not_pending_of_filledAt (s : SimulationStore) (i : ℕ)
    (h : filledAt s i) : i ∉ pending_indices s := by
  obtain ⟨d, v, hg⟩ := h
  unfold pending_indices
  rw [List.mem_filter]
  rintro ⟨hmem, hnone⟩
  rw [List.getD_eq_getElem?_getD, ← List.get?_eq_getElem?, hg] at hnone
  simp at hnone

/-- Claim C8 (spec-modelled): once `fill` has succeeded on an index, any
second `fill` of that index — immediately or after any further sequence of
append/fill operations across later rounds — fails with
`AlreadyFilledError`, and the index never reappears in `pending_indices`
(the list handed to the simulator), so it is never re-simulated. -/
theorem fill_twice_fails (s s' : SimulationStore) (i : ℕ) (o : List ℚ)
    (h : fill s i o = .ok s') :
    ∀ (ops : List StoreOp) (o' : List ℚ),
      fill (applyOps s' ops) i o' = .error .AlreadyFilledError ∧
      i ∉ pending_indices (applyOps s' ops) := by
  intro ops o'
  have hf := filledAt_applyOps ops s' i (fill_ok_filledAt s s' i o h)
  exact ⟨fill_filledAt_fails _ i o' hf, not_pending_of_filledAt _ i hf⟩

/-- Witness for C8: a one-entry store whose pending entry is filled once and
can never be filled again. -/
theorem fill_twice_fails_witness :
    fill (SimulationStore.mk [([(1 : ℚ)], some [(2 : ℚ)])]) 0 [(3 : ℚ)]
        = .error .AlreadyFilledError ∧
      0 ∉ pending_indices (SimulationStore.mk [([(1 : ℚ)], some [(2 : ℚ)])]) := by
  have h := fill_twice_fails (SimulationStore.mk [([(1 : ℚ)], none)])
    (SimulationStore.mk [([(1 : ℚ)], some [(2 : ℚ)])]) 0 [(2 : ℚ)] (by rfl) [] [(3 : ℚ)]
  exact h

/-! ## `_get_weights` (claim C10)

The log-ratio tensor has shape (samples, ratio entries); it is modelled as a
list of rows.  `torch.exp` is abstracted as the parameter `expF`, assumed
positive and turning subtraction into division, as the real exponential
does. -/

/-- `tensor.max(axis=0)` at column `j`. -/
def colMax (lr : List (List ℚ)) (j : ℕ) : ℚ :=
  listMaxD (lr.map fun row => row.getD j 0) 0

/-- `tensor.sum(axis=0)` at column `j`. -/
def colSum (w : List (List ℚ)) (j : ℕ) : ℚ :=
  (w.map fun row => row.getD j 0).sum

/-- Elementwise map of a row with access to the column index. -/
def mapWithIdx (f : ℕ → ℚ → ℚ) (l : List ℚ) : List ℚ :=
  (List.range l.length).map fun j : ℕ => f j (l.getD j 0)

/-- Shallow embedding of `_get_weights` (`src/swyft/lightning/utils.py`).
With `normalize = true`: subtract the column max, exponentiate, then rescale
every column entry by `len(weights) / column-sum`; with `normalize = false`:
plain elementwise exponential. -/
def _get_weights (expF : ℚ → ℚ) (logratios : List (List ℚ)) (normalize : Bool) :
    List (List ℚ) :=
  if normalize then
    let w := logratios.map fun row =>
      mapWithIdx (fun j v => expF (v - colMax logratios j)) row
    w.map fun row => mapWithIdx (fun j v => v / colSum w j * (w.length : ℚ)) row
  else
    logratios.map fun row => row.map expF

theorem length_mapWithIdx (f : ℕ → ℚ → ℚ) (l : List ℚ) :
    (mapWithIdx f l).length = l.length := by
  simp [mapWithIdx]

theorem mapWithIdx_getD (f : ℕ → ℚ → ℚ) (l : List ℚ) (j : ℕ) (h : j < l.length) :
    (mapWithIdx f l).getD j 0 = f j (l.getD j 0) := by
  unfold mapWithIdx
  exact getD_range_map _ _ _ _ h

theorem getD_map_list {α β : Type} (g : α → β) (l : List α) (i : ℕ)
    (dα : α) (dβ : β) (h : i < l.length) :
    (l.map g).getD i dβ = g (l.getD i dα) := by
  rw [List.getD_eq_getElem _ _ (by simpa using h), List.getD_eq_getElem _ _ h,
    List.getElem_map]

theorem getD_mem_general {α : Type} (l : List α) (i : ℕ) (d : α)
    (h : i < l.length) : l.getD i d ∈ l := by
  rw [List.getD_eq_getElem _ _ h]
  exact List.getElem_mem h

theorem sum_map_getD_mul (w : List (List ℚ)) (j : ℕ) (c : ℚ) :
    (w.map fun row => row.getD j 0 * c).sum
      = (w.map fun row => row.getD j 0).sum * c := by
  induction w with
  | nil => simp
  | cons h t ih =>
    rw [List.map_cons, List.map_cons, List.sum_cons, List.sum_cons, ih]
    ring

/-- Claim C10: with `normalize = false`, `_get_weights` returns exactly the
elementwise exponential of the log-ratios; with `normalize = true`, each
column of the result sums to the number of samples `len(weights)` (not one)
and is proportional to the elementwise exponential of the log-ratios. -/
theorem get_weights_spec (expF : ℚ → ℚ) (lr : List (List ℚ)) (C j : ℕ)
    (hpos : ∀ t, 0 < expF t) (hhom : ∀ a b, expF (a - b) = expF a / expF b)
    (hne : lr ≠ []) (hrect : ∀ row ∈ lr, row.length = C) (hj : j < C) :
    _get_weights expF lr false = lr.map (fun row => row.map expF) ∧
    colSum (_get_weights expF lr true) j = (lr.length : ℚ) ∧
    ∃ c : ℚ, 0 < c ∧ ∀ i, i < lr.length →
      ((_get_weights expF lr true).getD i []).getD j 0
        = c * expF ((lr.getD i []).getD j 0) := by
  have hfalse : _get_weights expF lr false = lr.map (fun row => row.map expF) := by
    simp [_get_weights]
  have htrue : _get_weights expF lr true
      = (lr.map fun row => mapWithIdx (fun j' v => expF (v - colMax lr j')) row).map
          fun row => mapWithIdx (fun j' v =>
            v / colSum (lr.map fun row' =>
              mapWithIdx (fun j'' v' => expF (v' - colMax lr j'')) row') j'
            * ((lr.map fun row' =>
              mapWithIdx (fun j'' v' => expF (v' - colMax lr j'')) row').length : ℚ)) row := by
    simp [_get_weights]
  set w := lr.map fun row => mapWithIdx (fun j' v => expF (v - colMax lr j')) row with hw
  have hwlen : w.length = lr.length := by rw [hw, List.length_map]
  have hwne : w ≠ [] := by
    rw [hw]
    intro hc
    exact hne (List.map_eq_nil_iff.mp hc)
  have hwmem : ∀ row ∈ w, ∃ row0 ∈ lr,
      row = mapWithIdx (fun j' v => expF (v - colMax lr j')) row0 := by
    intro row hrow
    rw [hw] at hrow
    obtain ⟨row0, h0, he⟩ := List.mem_map.mp hrow
    exact ⟨row0, h0, he.symm⟩
  have hwpos : ∀ row ∈ w, 0 < row.getD j 0 := by
    intro row hrow
    obtain ⟨row0, h0, he⟩ := hwmem row hrow
    rw [he, mapWithIdx_getD _ _ _ (by rw [hrect row0 h0]; exact hj)]
    exact hpos _
  have hT : 0 < colSum w j := by
    unfold colSum
    refine List.sum_pos _ ?_ ?_
    · intro a ha
      obtain ⟨row, hrow, he⟩ := List.mem_map.mp ha
      rw [← he]
      exact hwpos row hrow
    · intro hc
      exact hwne (List.map_eq_nil_iff.mp hc)
  refine ⟨hfalse, ?_, ?_⟩
  · rw [htrue]
    have hcongr : w.map ((fun row => row.getD j 0) ∘ fun row =>
        mapWithIdx (fun j' v => v / colSum w j' * (w.length : ℚ)) row)
        = w.map fun row => row.getD j 0 * ((w.length : ℚ) / colSum w j) := by
      refine List.map_congr_left ?_
      intro row hrow
      obtain ⟨row0, h0, he⟩ := hwmem row hrow
      have hrl : j < row.length := by
        rw [he, length_mapWithIdx, hrect row0 h0]
        exact hj
      simp only [Function.comp]
      rw [mapWithIdx_getD _ _ _ hrl]
      ring
    have hcs : colSum (w.map fun row =>
        mapWithIdx (fun j' v => v / colSum w j' * (w.length : ℚ)) row) j
        = ((w.map fun row =>
            mapWithIdx (fun j' v => v / colSum w j' * (w.length : ℚ)) row).map
          fun row => row.getD j 0).sum := rfl
    rw [hcs, List.map_map, hcongr, sum_map_getD_mul]
    have hback : (w.map fun row => row.getD j 0).sum = colSum w j := rfl
    rw [hback, hwlen]
    have hTne : colSum w j ≠ 0 := ne_of_gt hT
    field_simp
  · refine ⟨(lr.length : ℚ) / (colSum w j * expF (colMax lr j)), ?_, ?_⟩
    · apply div_pos
      · have : 0 < lr.length := List.length_pos.mpr hne
        exact_mod_cast this
      · exact mul_pos hT (hpos _)
    · intro i hi
      rw [htrue]
      have hiw : i < w.length := by rw [hwlen]; exact hi
      rw [getD_map_list _ w i [] [] hiw]
      have hwgetD : w.getD i []
          = mapWithIdx (fun j' v => expF (v - colMax lr j')) (lr.getD i []) := by
        rw [hw]
        exact getD_map_list _ lr i [] [] hi
      have hrowlen : (lr.getD i []).length = C :=
        hrect _ (getD_mem_general lr i [] hi)
      rw [hwgetD, mapWithIdx_getD _ _ _ (by rw [length_mapWithIdx, hrowlen]; exact hj),
        mapWithIdx_getD _ _ _ (by rw [hrowlen]; exact hj)]
      rw [hhom]
      rw [hwlen]
      ring

/-- Witness for C10 on a concrete 2-sample, 1-column tensor with a constant
positive pseudo-exponential. -/
theorem get_weights_spec_witness :
    _get_weights (fun _ => 1) [[0], [0]] false
        = ([[0], [0]] : List (List ℚ)).map (fun row => row.map (fun _ => 1)) ∧
    colSum (_get_weights (fun _ => 1) [[0], [0]] true) 0 = (2 : ℚ) ∧
    ∃ c : ℚ, 0 < c ∧ ∀ i, i < 2 →
      ((_get_weights (fun _ => 1) [[0], [0]] true).getD i []).getD 0 0 = c * 1 := by
  have h := get_weights_spec (fun _ => 1) [[0], [0]] 1 0
    (fun _ => by norm_num) (fun _ _ => by norm_num)
    (by simp)
    (by
      intro row hrow
      have h2 : row = [0] := by simpa using hrow
      rw [h2]
      rfl)
    (by norm_num)
  exact h

/-! ## `get_weighted_samples` (claim C9) -/

/-- `LogRatioSamples`: parameter-name tuples per ratio entry, parameter
values of shape (sample, entry, param) and log-ratios of shape
(sample, entry). -/
structure LogRatioSamples where
  parnames : List (List String)
  params : List (List (List ℚ))
  logratios : List (List ℚ)

/-- `all(x in pars for x in params)`. -/
def containsAll (pars ps : List String) : Bool := ps.all fun x => pars.contains x

/-- `idx = [list(pars).index(x) for x in params]`. -/
def selectIdx (pars ps : List String) : List ℕ := ps.map fun x => pars.indexOf x

/-- `l.params[:, i, idx]`. -/
def extractParams (l : LogRatioSamples) (i : ℕ) (idx : List ℕ) : List (List ℚ) :=
  l.params.map fun row => idx.map fun k => (row.getD i []).getD k 0

/-- `_get_weights(l.logratios, normalize=True)[:, i]`. -/
def extractWeights (expF : ℚ → ℚ) (l : LogRatioSamples) (i : ℕ) : List ℚ :=
  (_get_weights expF l.logratios true).map fun row => row.getD i 0

/-- The `for i, pars in enumerate(l.parnames)` scan: index of the first
parameter-name tuple containing all requested names. -/
def firstMatchIdx (pn : List (List String)) (ps : List String) : Option ℕ :=
  match pn with
  | [] => none
  | pars :: rest =>
    if containsAll pars ps then some 0
    else (firstMatchIdx rest ps).map (· + 1)

/-- Shallow embedding of `get_weighted_samples`
(`src/swyft/lightning/utils.py`): scan the collection in order and, inside
each entry, the parameter-name tuples in order; at the first tuple containing
every requested name return the selected parameter columns and the
normalized weight column; raise `SwyftParameterError` (modelled as
`Except.error`) when no entry matches. -/
def get_weighted_samples (expF : ℚ → ℚ) (lrs_coll : List LogRatioSamples)
    (ps : List String) : Except Unit (List (List ℚ) × List ℚ) :=
  match lrs_coll with
  | [] => .error ()
  | l :: rest =>
    match firstMatchIdx l.parnames ps with
    | some i => .ok (extractParams l i (selectIdx (l.parnames.getD i []) ps),
        extractWeights expF l i)
    | none => get_weighted_samples expF rest ps

theorem containsAll_iff (pars ps : List String) :
    containsAll pars ps = true ↔ ∀ p ∈ ps, p ∈ pars := by
  unfold containsAll
  rw [List.all_eq_true]
  constructor
  · intro h p hp
    exact List.elem_iff.mp (h p hp)
  · intro h p hp
    exact List.elem_iff.mpr (h p hp)

theorem firstMatchIdx_none_iff (pn : List (List String)) (ps : List String) :
    firstMatchIdx pn ps = none ↔ ∀ pars ∈ pn, containsAll pars ps = false := by
  induction pn with
  | nil => simp [firstMatchIdx]
  | cons pars rest ih =>
    unfold firstMatchIdx
    by_cases hc : containsAll pars ps = true
    · rw [if_pos hc]
      constructor
      · intro h
        exact absurd h (by simp)
      · intro h
        exfalso
        have hx := h pars (List.mem_cons_self pars rest)
        rw [hc] at hx
        exact Bool.noConfusion hx
    · have hcf : containsAll pars ps = false := Bool.eq_false_iff.mpr hc
      rw [if_neg hc, Option.map_eq_none', ih]
      constructor
      · intro h q hq
        rcases List.mem_cons.mp hq with rfl | hq
        · exact hcf
        · exact h q hq
      · intro h q hq
        exact h q (List.mem_cons_of_mem _ hq)

theorem firstMatchIdx_some_char (pn : List (List String)) (ps : List String) :
    ∀ i, firstMatchIdx pn ps = some i →
      i < pn.length ∧ containsAll (pn.getD i []) ps = true ∧
        ∀ i', i' < i → containsAll (pn.getD i' []) ps = false := by
  induction pn with
  | nil => intro i h; simp [firstMatchIdx] at h
  | cons pars rest ih =>
    intro i h
    unfold firstMatchIdx at h
    by_cases hc : containsAll pars ps
    · rw [if_pos hc] at h
      simp only [Option.some.injEq] at h
      subst h
      exact ⟨by simp, by simpa using hc, fun i' hi' => absurd hi' (by omega)⟩
    · rw [if_neg hc] at h
      cases hr : firstMatchIdx rest ps with
      | none => rw [hr] at h; simp at h
      | some i0 =>
        rw [hr] at h
        simp only [Option.map_some', Option.some.injEq] at h
        subst h
        obtain ⟨h1, h2, h3⟩ := ih i0 hr
        refine ⟨by simp; omega, by simpa using h2, ?_⟩
        intro i' hi'
        cases i' with
        | zero => simpa using Bool.eq_false_iff.mpr hc
        | succ i'' =>
          rw [List.getD_cons_succ]
          exact h3 i'' (by omega)

theorem firstMatchIdx_some_of (pn : List (List String)) (ps : List String) :
    ∀ i, i < pn.length → containsAll (pn.getD i []) ps = true →
      (∀ i', i' < i → containsAll (pn.getD i' []) ps = false) →
      firstMatchIdx pn ps = some i := by
  induction pn with
  | nil => intro i hi; simp at hi
  | cons pars rest ih =>
    intro i hi h1 h2
    unfold firstMatchIdx
    cases i with
    | zero =>
      rw [List.getD_cons_zero] at h1
      rw [if_pos h1]
    | succ i0 =>
      have hc : containsAll pars ps = false := by
        simpa using h2 0 (by omega)
      rw [if_neg (by rw [hc]; exact Bool.false_ne_true)]
      have := ih i0 (by simpa using hi) (by simpa using h1)
        (fun i' hi' => by simpa using h2 (i' + 1) (by omega))
      rw [this]
      rfl

/-- Claim C9: `get_weighted_samples` raises `SwyftParameterError` exactly
when no collection entry has a parameter-name tuple containing every
requested name; otherwise it returns the parameter and weight tensors taken
from the first matching entry in collection-then-parnames iteration order. -/
theorem get_weighted_samples_spec (expF : ℚ → ℚ)
    (coll : List LogRatioSamples) (ps : List String) :
    (get_weighted_samples expF coll ps = .error ()
      ↔ ¬ ∃ l ∈ coll, ∃ pars ∈ l.parnames, ∀ p ∈ ps, p ∈ pars) ∧
    (∀ a i, a < coll.length →
      (∀ b, b < a → ∀ pars ∈ (coll.getD b (LogRatioSamples.mk [] [] [])).parnames,
        ¬ ∀ p ∈ ps, p ∈ pars) →
      i < (coll.getD a (LogRatioSamples.mk [] [] [])).parnames.length →
      (∀ p ∈ ps, p ∈ (coll.getD a (LogRatioSamples.mk [] [] [])).parnames.getD i []) →
      (∀ i', i' < i →
        ¬ ∀ p ∈ ps, p ∈ (coll.getD a (LogRatioSamples.mk [] [] [])).parnames.getD i' []) →
      get_weighted_samples expF coll ps
        = .ok (extractParams (coll.getD a (LogRatioSamples.mk [] [] [])) i
            (selectIdx ((coll.getD a (LogRatioSamples.mk [] [] [])).parnames.getD i []) ps),
          extractWeights expF (coll.getD a (LogRatioSamples.mk [] [] [])) i)) := by
  constructor
  · induction coll with
    | nil => simp [get_weighted_samples]
    | cons l rest ih =>
      unfold get_weighted_samples
      cases hf : firstMatchIdx l.parnames ps with
      | some i =>
        obtain ⟨h1, h2, _⟩ := firstMatchIdx_some_char l.parnames ps i hf
        simp only [List.mem_cons]
        constructor
        · intro hcontra
          exact absurd hcontra (by simp)
        · intro hno
          exfalso
          exact hno ⟨l, Or.inl rfl, l.parnames.getD i [],
            getD_mem_general _ i [] h1, (containsAll_iff _ ps).mp h2⟩
      | none =>
        have hhead := (firstMatchIdx_none_iff l.parnames ps).mp hf
        rw [ih]
        constructor
        · rintro hno ⟨l', hl', pars, hpars, hall⟩
          rcases List.mem_cons.mp hl' with rfl | hl'
          · have hfalse := hhead pars hpars
            rw [(containsAll_iff pars ps).mpr hall] at hfalse
            exact Bool.noConfusion hfalse
          · exact hno ⟨l', hl', pars, hpars, hall⟩
        · rintro hno ⟨l', hl', pars, hpars, hall⟩
          exact hno ⟨l', List.mem_cons_of_mem l hl', pars, hpars, hall⟩
  · induction coll with
    | nil => intro a i ha; simp at ha
    | cons l rest ih =>
      intro a i ha hbefore hi hmatch hibefore
      cases a with
      | zero =>
        simp only [List.getD_cons_zero] at hi hmatch hibefore ⊢
        have hsome : firstMatchIdx l.parnames ps = some i := by
          refine firstMatchIdx_some_of l.parnames ps i hi
            ((containsAll_iff _ ps).mpr hmatch) ?_
          intro i' hi'
          have := hibefore i' hi'
          rw [← containsAll_iff] at this
          exact Bool.eq_false_iff.mpr this
        unfold get_weighted_samples
        rw [hsome]
      | succ a0 =>
        have hhead : firstMatchIdx l.parnames ps = none := by
          rw [firstMatchIdx_none_iff]
          intro pars hpars
          have := hbefore 0 (by omega) pars (by simpa using hpars)
          rw [← containsAll_iff] at this
          exact Bool.eq_false_iff.mpr this
        unfold get_weighted_samples
        rw [hhead]
        simp only [List.getD_cons_succ] at hi hmatch hibefore ⊢
        exact ih a0 i (by simpa using ha)
          (fun b hb => by simpa using hbefore (b + 1) (by omega))
          hi hmatch hibefore

/-- Witness for C9: a one-entry collection matching the single requested
name at tuple index 0, and the empty collection raising the error. -/
theorem get_weighted_samples_spec_witness :
    get_weighted_samples (fun _ => 1)
        [LogRatioSamples.mk [["a"]] [[[5]]] [[0]]] ["a"]
      = .ok (extractParams (LogRatioSamples.mk [["a"]] [[[5]]] [[0]]) 0
          (selectIdx ["a"] ["a"]),
        extractWeights (fun _ => 1) (LogRatioSamples.mk [["a"]] [[[5]]] [[0]]) 0) := by
  have h := (get_weighted_samples_spec (fun _ => 1)
    [LogRatioSamples.mk [["a"]] [[[5]]] [[0]]] ["a"]).2 0 0
    (by simp)
    (by intro b hb; omega)
    (by simp)
    (by intro p hp; simpa using hp)
    (by intro i' hi'; omega)
  simpa using h

end Swyft
